import Mathlib

/-!
Verification development for the ECHEC chess engine
(src/ECHEC-main/ia_tree.py and src/ECHEC-main/learning_manager.py).

The Python code is shallowly embedded as executable Lean definitions:

* Ordered dictionaries with LRU eviction (class BoundedTT in ia_tree.py and
  class BoundedDict in learning_manager.py share one algorithm) become an
  association-list structure whose list order is the recency order
  (head = least recently used, last = most recently used).
* The chess rules engine (the python-chess Board collaborator, out of scope
  per the specification) is an abstract interface `Eng` of operation
  functions; the engine code itself (minimax, quiescence, iterative
  deepening, coup, the learning manager) is transcribed line by line
  against that interface.
* The mutable board with push/pop is modelled as an explicit stack object
  threaded through the search, so that push/pop balance is a theorem about
  the transcription rather than a by-product of functional style.
* Wall-clock reads and random draws are oracle functions inside `Eng`.
* Python floats in the learning manager are modelled as rationals; every
  claim about them concerns directions and orderings that are insensitive
  to rounding.
* Recursion that Python bounds by runtime facts (search depth, capture
  chains) is given an explicit fuel argument so that all definitions are
  structurally recursive and kernel-evaluable; theorems require fuel
  sufficient to make the fuel-exhaustion branch unreachable.
-/

/-! ### Association lists (Python dict primitives) -/

/-- First value bound to a key in an association list. -/
def assocFind {K V : Type} [DecidableEq K] : List (K × V) → K → Option V
  | [], _ => none
  | kv :: rest, k => if kv.1 = k then some kv.2 else assocFind rest k

/-- Remove every binding of a key. On the de-duplicated lists produced by
dict operations this removes the unique binding. -/
def removeKey {K V : Type} [DecidableEq K] : List (K × V) → K → List (K × V)
  | [], _ => []
  | kv :: rest, k =>
    if kv.1 = k then removeKey rest k else kv :: removeKey rest k

/-- Python dict assignment `d[k] = v`: update in place if the key exists
(keeping its position), otherwise append at the end. -/
def dictSet {K V : Type} [DecidableEq K] (l : List (K × V)) (k : K) (v : V) :
    List (K × V) :=
  match assocFind l k with
  | some _ => l.map (fun kv => if kv.1 = k then (k, v) else kv)
  | none => l ++ [(k, v)]

/-! ### LRU-bounded ordered dictionary

Models both `BoundedTT` (ia_tree.py lines 279-302) and `BoundedDict`
(learning_manager.py lines 11-53), which implement the same algorithm over
`collections.OrderedDict`: `get` moves an existing key to the most-recent
end and returns its value; `put`/`__setitem__` moves an existing key to the
end (then overwrites its value), and for a fresh key first evicts the
least-recently-used entry whenever the table is at capacity.
`popitem(last=False)` on an empty dict raises in Python; the model makes it
a no-op, and capacity theorems assume `1 ≤ maxSize`, under which the
raising situation is unreachable. -/

structure LRU (K V : Type) where
  maxSize : Nat
  data : List (K × V)
deriving Repr, DecidableEq

/-- BoundedTT.get / BoundedDict.get: refresh recency and return the value. -/
def LRU.get {K V : Type} [DecidableEq K] (t : LRU K V) (k : K) :
    Option V × LRU K V :=
  match assocFind t.data k with
  | some v => (some v, { t with data := removeKey t.data k ++ [(k, v)] })
  | none => (none, t)

/-- BoundedTT.put / BoundedDict.__setitem__. -/
def LRU.put {K V : Type} [DecidableEq K] (t : LRU K V) (k : K) (v : V) :
    LRU K V :=
  match assocFind t.data k with
  | some _ => { t with data := removeKey t.data k ++ [(k, v)] }
  | none =>
    let d := if t.maxSize ≤ t.data.length then t.data.tail else t.data
    { t with data := d ++ [(k, v)] }

/-- BoundedTT.clear. -/
def LRU.clear {K V : Type} (t : LRU K V) : LRU K V := { t with data := [] }

/-- One access of a bounded table, for stating properties of operation
sequences. -/
inductive LRUOp (K V : Type) where
  | get (k : K)
  | put (k : K) (v : V)
deriving Repr

/-- Apply a sequence of get/put operations. -/
def LRU.applyOps {K V : Type} [DecidableEq K] (t : LRU K V) :
    List (LRUOp K V) → LRU K V
  | [] => t
  | .get k :: rest => ((t.get k).2).applyOps rest
  | .put k v :: rest => (t.put k v).applyOps rest

/-- Insert a list of key-value pairs in order. -/
def LRU.putAll {K V : Type} [DecidableEq K] (t : LRU K V)
    (l : List (K × V)) : LRU K V :=
  l.foldl (fun acc kv => acc.put kv.1 kv.2) t

/-! ### Decimal round trip

Models the serialization of learning-store keys: `_save` writes `str(k)`
and `_load` reads the key back with `int(k)` (learning_manager.py lines
117 and 148). A decimal numeral is modelled as its little-endian digit
list. -/

/-- Little-endian decimal digits, with explicit fuel (`n` itself is enough
fuel since the argument at least halves each step). -/
def decDigits : Nat → Nat → List Nat
  | 0, _ => []
  | _ + 1, 0 => []
  | fuel + 1, n + 1 => (n + 1) % 10 :: decDigits fuel ((n + 1) / 10)

/-- The decimal numeral of a natural number; models Python str(k). -/
def natToDec (n : Nat) : List Nat := decDigits n n

/-- Value of a little-endian decimal numeral; models Python int(s). -/
def decToNat : List Nat → Nat
  | [] => 0
  | d :: ds => d + 10 * decToNat ds

/-! ### Zobrist hashing (ia_tree.py lines 307-332)

The random tables are produced once from the fixed seed 0xDEADBEEF; the
model abstracts the table contents as constants (`ZTables`) because the
claims concern which position features the hash reads, not the individual
64-bit values. The board features the hash reads are modelled concretely,
together with the move counters that a FEN string additionally carries. -/

structure ZTables where
  piece : Bool → Nat → Nat → Nat
  turnKey : Nat
  castling : Nat → Nat
  ep : Nat → Nat

structure ZBoard where
  pieceAt : Nat → Option (Bool × Nat)
  turn : Bool
  castlingRights : Nat
  epSquare : Option Nat
  halfmoveClock : Nat
  fullmoveNumber : Nat

/-- zobrist_hash: XOR of per-piece constants over the 64 squares, the
side-to-move constant when White is to move, the constant for the low
nibble of the castling-rights mask, and the en-passant file constant when
an en-passant square is set. -/
def zobristHash (T : ZTables) (b : ZBoard) : Nat :=
  let h := (List.range 64).foldl
    (fun h sq =>
      match b.pieceAt sq with
      | some pc => h ^^^ T.piece pc.1 pc.2 sq
      | none => h) 0
  let h := if b.turn then h ^^^ T.turnKey else h
  let h := h ^^^ T.castling (b.castlingRights &&& 0xF)
  match b.epSquare with
  | some sq => h ^^^ T.ep (sq % 8)
  | none => h

/-! ### The engine interface

`Eng` packages the python-chess Board collaborator (an external component
per the specification), the engine constants, and oracles for wall-clock
reads and random draws. Piece types use the python-chess codes
1 = pawn, 2 = knight, 3 = bishop, 4 = rook, 5 = queen, 6 = king. -/

structure Eng (Pos Move : Type) where
  /-- list(board.legal_moves) -/
  legalMoves : Pos → List Move
  /-- board.push(move), as the position it produces -/
  push : Pos → Move → Pos
  /-- board.push(Move.null()), as the position it produces -/
  nullPush : Pos → Pos
  /-- board.is_capture(move) -/
  isCapture : Pos → Move → Bool
  /-- board.is_check() -/
  isCheck : Pos → Bool
  /-- board.is_checkmate() -/
  isCheckmate : Pos → Bool
  /-- board.is_stalemate() or board.is_insufficient_material() or
  board.is_seventyfive_moves() -/
  isDrawTerminal : Pos → Bool
  /-- board.is_game_over() -/
  isGameOver : Pos → Bool
  /-- board.is_repetition(2) -/
  isRepetition2 : Pos → Bool
  /-- board.turn == WHITE -/
  turnWhite : Pos → Bool
  /-- len(board.pieces(pieceType, color)) -/
  numPieces : Pos → Nat → Bool → Nat
  /-- board.piece_at(square), reduced to the piece type (the only field the
  engine reads from it) -/
  pieceAt : Pos → Nat → Option Nat
  /-- board.ply() -/
  ply : Pos → Nat
  /-- move.from_square -/
  fromSq : Move → Nat
  /-- move.to_square -/
  toSq : Move → Nat
  /-- move.promotion -/
  promo : Move → Option Nat
  /-- The non-terminal body of TreeIA.evaluate (ia_tree.py lines 580-665):
  material, piece-square tables, pawn structure, mobility, development,
  castling and center terms, and the learned-value blend, all computed
  White-relative. None of the verified claims depends on its value, so it
  is abstracted as one function of the position. -/
  staticEval : Pos → Int
  /-- zobrist_hash(board) -/
  zobrist : Pos → Nat
  /-- board.fen() -/
  fen : Pos → String
  /-- board.san(move) -/
  san : Pos → Move → String
  /-- board.push_san(text) when it succeeds, reduced to the parsed move -/
  parseSan : Pos → String → Option Move
  /-- Python builtin hash() on strings (process-salted, signed) -/
  pyHash : String → Int
  /-- self.depth (the configured nominal depth) -/
  engineDepth : Nat
  /-- fuel bound for quiescence capture chains (model device; any bound at
  least the number of capturable pieces makes the fuel branch unreachable) -/
  qfuel : Nat
  /-- oracle: the time check `time.time() - start > limit` as observed at
  the given node count -/
  timeUp : Nat → Bool
  /-- oracle: `elapsed > time_limit * 0.85` after finishing the given depth -/
  idStop : Nat → Bool
  /-- oracle: random.sample(candidates, len(candidates)) -/
  sample : List String → List String
  /-- oracle: random.choice(candidates) -/
  choice : List Move → Option Move
  /-- oracle: learning_manager.should_explore() for this call -/
  explore : Bool

/-- PIECE_VALUES (ia_tree.py line 25), with the dict-get default 0. -/
def pieceValue : Nat → Int
  | 1 => 100
  | 2 => 320
  | 3 => 330
  | 4 => 500
  | 5 => 900
  | 6 => 20000
  | _ => 0

variable {Pos Move : Type}

/-- TreeIA._material_score: piece-value differential over pawn..queen. -/
def materialScore (E : Eng Pos Move) (p : Pos) : Int :=
  ([1, 2, 3, 4, 5] : List Nat).foldl
    (fun s pt =>
      s + pieceValue pt * ((E.numPieces p pt true : Int) - (E.numPieces p pt false : Int)))
    0

/-- TreeIA._is_endgame. -/
def isEndgame (E : Eng Pos Move) (p : Pos) : Bool :=
  let queens := E.numPieces p 5 true + E.numPieces p 5 false
  let minorsW := E.numPieces p 2 true + E.numPieces p 3 true
  let minorsB := E.numPieces p 2 false + E.numPieces p 3 false
  decide (queens = 0 ∨ (queens = 2 ∧ minorsW ≤ 1 ∧ minorsB ≤ 1))

/-- TreeIA._is_repetition_move: push the move, read is_repetition(2), pop.
The push/pop pair is straight-line with no early exit, so it is modelled
functionally on the position produced by the push. -/
def isRepetitionMove (E : Eng Pos Move) (p : Pos) (m : Move) : Bool :=
  E.isRepetition2 (E.push p m)

/-- TreeIA.evaluate (ia_tree.py lines 568-668). The checkmate branch reads
the depth bonus `_eval_depth` (passed explicitly here); draws score 0; the
remaining White-relative terms are `Eng.staticEval`, negated for the side
to move (negamax convention). -/
def evaluateE (E : Eng Pos Move) (p : Pos) (evalDepth : Int) : Int :=
  if E.isCheckmate p then -99000 - evalDepth
  else if E.isDrawTerminal p then 0
  else
    let s := E.staticEval p
    if E.turnWhite p then s else -s

/-! ### Move ordering (ia_tree.py lines 720-773) -/

variable [DecidableEq Move]

/-- TreeIA._move_score: repetition penalty, MVV-LVA for captures (flat 500
for en passant, where the victim lookup returns nothing), promotion value,
killer bonuses at ply = self.depth - depth, and the history bonus
divided by 256. -/
def moveScore (E : Eng Pos Move) (killers : List (Option Move × Option Move))
    (history : List ((Nat × Nat) × Nat)) (p : Pos) (depth : Nat) (m : Move) : Int :=
  let s : Int := if isRepetitionMove E p m then -500 else 0
  let s := s + (if E.isCapture p m then
      match E.pieceAt p (E.toSq m), E.pieceAt p (E.fromSq m) with
      | some victim, some aggressor => 10 * pieceValue victim - pieceValue aggressor
      | _, _ => 500
    else 0)
  let s := s + (match E.promo m with
    | some pt => pieceValue pt
    | none => 0)
  let ply : Int := (E.engineDepth : Int) - (depth : Int)
  let s := s + (if 0 ≤ ply ∧ ply.toNat < killers.length then
      match killers.get? ply.toNat with
      | some ks => if ks.1 = some m then 90 else if ks.2 = some m then 80 else 0
      | none => 0
    else 0)
  s + ((assocFind history (E.fromSq m, E.toSq m)).getD 0 / 256 : Nat)

/-- Stable insertion into a list sorted by descending score. -/
def insertDesc {M : Type} (x : Int × M) : List (Int × M) → List (Int × M)
  | [] => [x]
  | y :: rest => if y.1 < x.1 then x :: y :: rest else y :: insertDesc x rest

/-- Stable sort by descending score, modelling
`scored.sort(key=lambda x: x[0], reverse=True)`. -/
def sortDesc {M : Type} : List (Int × M) → List (Int × M)
  | [] => []
  | x :: rest => insertDesc x (sortDesc rest)

/-- TreeIA._order_moves. -/
def orderMoves (E : Eng Pos Move) (killers : List (Option Move × Option Move))
    (history : List ((Nat × Nat) × Nat)) (p : Pos) (depth : Nat)
    (moves : List Move) : List Move :=
  (sortDesc (moves.map (fun m => (moveScore E killers history p depth m, m)))).map (·.2)

/-- TreeIA._update_killer at ply = engineDepth - depth. -/
def updateKiller (killers : List (Option Move × Option Move))
    (engineDepth depth : Nat) (m : Move) : List (Option Move × Option Move) :=
  let ply : Int := (engineDepth : Int) - (depth : Int)
  if 0 ≤ ply ∧ ply.toNat < killers.length then
    match killers.get? ply.toNat with
    | some ks => if ks.1 = some m then killers else killers.set ply.toNat (some m, ks.1)
    | none => killers
  else killers

/-- TreeIA._update_history: add depth squared, halving every entry once the
table exceeds 8192 keys. -/
def updateHistory (E : Eng Pos Move) (history : List ((Nat × Nat) × Nat))
    (m : Move) (depth : Nat) : List ((Nat × Nat) × Nat) :=
  let key := (E.fromSq m, E.toSq m)
  let h := dictSet history key ((assocFind history key).getD 0 + depth * depth)
  if h.length > 8192 then h.map (fun kv => (kv.1, kv.2 / 2)) else h

/-! ### Search state

The mutable TreeIA attributes threaded through the search, and the board
object itself. `board.push` stacks the previous position in `saved`;
`board.pop` restores it. `putLog` is a ghost trace of the transposition
writes: it records (key, depth) for every `tt.put` and alters no behavior. -/

structure BoardObj (Pos : Type) where
  cur : Pos
  saved : List Pos
deriving Repr, DecidableEq

structure TTEntry (Move : Type) where
  score : Int
  flag : Nat
  depth : Nat
  move : Option Move
deriving Repr, DecidableEq

/-- Flag values EXACT, LOWER, UPPER = 0, 1, 2 (class BoundedTT). -/
def FLAG_EXACT : Nat := 0
def FLAG_LOWER : Nat := 1
def FLAG_UPPER : Nat := 2

structure SState (Pos Move : Type) where
  board : BoardObj Pos
  tt : LRU Nat (TTEntry Move)
  killers : List (Option Move × Option Move)
  history : List ((Nat × Nat) × Nat)
  nodes : Nat
  evalDepth : Int
  putLog : List (Nat × Nat)
deriving Repr, DecidableEq

/-- board.push(move). -/
def bPush (E : Eng Pos Move) (st : SState Pos Move) (m : Move) : SState Pos Move :=
  { st with board := ⟨E.push st.board.cur m, st.board.cur :: st.board.saved⟩ }

/-- board.push(Move.null()). -/
def bPushNull (E : Eng Pos Move) (st : SState Pos Move) : SState Pos Move :=
  { st with board := ⟨E.nullPush st.board.cur, st.board.cur :: st.board.saved⟩ }

/-- board.pop(): restore the topmost saved position. Popping with nothing
pushed is unreachable in the code and modelled as a no-op. -/
def bPop (st : SState Pos Move) : SState Pos Move :=
  { st with board := ⟨st.board.saved.headD st.board.cur, st.board.saved.tail⟩ }

/-- self.tt.put(zkey, score, flag, depth, move), with its ghost log entry. -/
def ttStore [DecidableEq Move] (st : SState Pos Move) (zkey : Nat) (score : Int)
    (flag depth : Nat) (mv : Option Move) : SState Pos Move :=
  { st with tt := st.tt.put zkey ⟨score, flag, depth, mv⟩,
            putLog := st.putLog ++ [(zkey, depth)] }

/-- The transposition-table block of TreeIA.minimax (lines 831-845):
either an early return (score, move) or the tightened window together with
the table move used to seed ordering. -/
def ttProbe [DecidableEq Move] (depth : Nat) (alpha beta : Int)
    (entry : Option (TTEntry Move)) :
    Sum (Int × Option Move) (Int × Int × Option Move) :=
  match entry with
  | none => .inr (alpha, beta, none)
  | some e =>
    if e.depth ≥ depth then
      if e.flag = FLAG_EXACT then .inl (e.score, e.move)
      else
        let alpha := if e.flag = FLAG_LOWER then max alpha e.score else alpha
        let beta := if e.flag = FLAG_UPPER then min beta e.score else beta
        if alpha ≥ beta then .inl (e.score, e.move)
        else .inr (alpha, beta, e.move)
    else .inr (alpha, beta, e.move)

/-! ### Quiescence search (ia_tree.py lines 778-808) -/

/-- The capture loop of TreeIA.quiescence: delta pruning, recursive negated
window, beta cutoff, alpha improvement. `recq` is the recursive call at one
fuel less. -/
def qLoop [DecidableEq Move] (E : Eng Pos Move)
    (recq : Int → Int → Int → SState Pos Move → Int × SState Pos Move)
    (standPat qdepth beta : Int) :
    List Move → Int → SState Pos Move → Int × SState Pos Move
  | [], alpha, st => (alpha, st)
  | m :: rest, alpha, st =>
    let b := st.board.cur
    let skip := match E.pieceAt b (E.toSq m) with
      | some victim => decide (standPat + pieceValue victim + 200 < alpha)
      | none => false
    if skip then qLoop E recq standPat qdepth beta rest alpha st
    else
      let st := bPush E st m
      let r := recq (-beta) (-alpha) (qdepth - 1) st
      let score := -r.1
      let st := bPop r.2
      if score ≥ beta then (beta, st)
      else qLoop E recq standPat qdepth beta rest (max alpha score) st

/-- TreeIA.quiescence. Fuel makes the capture recursion structural; any
fuel larger than the longest capture chain makes the fuel branch
unreachable. -/
def quiescence [DecidableEq Move] (E : Eng Pos Move) :
    Nat → Int → Int → Int → SState Pos Move → Int × SState Pos Move
  | 0, alpha, _, _, st => (alpha, st)
  | fuel + 1, alpha, beta, qdepth, st =>
    let st := { st with nodes := st.nodes + 1, evalDepth := qdepth }
    let b := st.board.cur
    let standPat := evaluateE E b qdepth
    if standPat ≥ beta then (beta, st)
    else
      let alpha := max alpha standPat
      let captures := (E.legalMoves b).filter (fun m => E.isCapture b m)
      let captures := orderMoves E st.killers st.history b 0 captures
      qLoop E (quiescence E fuel) standPat qdepth beta captures alpha st

/-! ### Minimax (ia_tree.py lines 813-942) -/

/-- Search result: (score, move), where a missing score is the timeout
sentinel (None, None). -/
abbrev MMRes (Move : Type) := Option Int × Option Move

/-- The late-move-reduction child search of the maximizing loop (lines
883-889), on the already pushed state: quiet late moves at depth ≥ 3 are
searched two plies shallower first and re-searched at full depth only when
the reduced score beats alpha. -/
def childMaxRe [DecidableEq Move]
    (rec : Nat → Int → Int → Bool → SState Pos Move → MMRes Move × SState Pos Move)
    (depth : Nat) (alpha beta : Int) (r1 : MMRes Move × SState Pos Move) :
    MMRes Move × SState Pos Move :=
  match r1.1.1 with
  | some sc => if sc > alpha then rec (depth - 1) alpha beta false r1.2 else r1
  | none => r1

def childMax [DecidableEq Move] (E : Eng Pos Move)
    (rec : Nat → Int → Int → Bool → SState Pos Move → MMRes Move × SState Pos Move)
    (depth : Nat) (alpha beta : Int) (i : Nat) (m : Move) (st : SState Pos Move) :
    MMRes Move × SState Pos Move :=
  if i ≥ 4 ∧ depth ≥ 3 ∧ ¬E.isCheck st.board.cur ∧ ¬E.isCapture st.board.cur m then
    childMaxRe rec depth alpha beta (rec (depth - 2) alpha beta false st)
  else rec (depth - 1) alpha beta false st

/-- The late-move-reduction child search of the minimizing loop (lines
915-922), with the negated windows of the source. -/
def childMinRe [DecidableEq Move]
    (rec : Nat → Int → Int → Bool → SState Pos Move → MMRes Move × SState Pos Move)
    (depth : Nat) (alpha beta : Int) (r1 : MMRes Move × SState Pos Move) :
    MMRes Move × SState Pos Move :=
  match r1.1.1 with
  | some sc => if -sc < beta then rec (depth - 1) (-beta) (-alpha) true r1.2 else r1
  | none => r1

def childMin [DecidableEq Move] (E : Eng Pos Move)
    (rec : Nat → Int → Int → Bool → SState Pos Move → MMRes Move × SState Pos Move)
    (depth : Nat) (alpha beta : Int) (i : Nat) (m : Move) (st : SState Pos Move) :
    MMRes Move × SState Pos Move :=
  if i ≥ 4 ∧ depth ≥ 3 ∧ ¬E.isCheck st.board.cur ∧ ¬E.isCapture st.board.cur m then
    childMinRe rec depth alpha beta (rec (depth - 2) (-beta) (-alpha) true st)
  else rec (depth - 1) (-beta) (-alpha) true st

/-- The maximizing move loop (lines 879-909). `rec` is the recursive
minimax at one fuel less; `i` is the enumerate index for late-move
reduction; the trailing bound classification and tt.put of lines 905-908
run both at loop exhaustion and after a beta cutoff. -/
def searchMax [DecidableEq Move] (E : Eng Pos Move)
    (rec : Nat → Int → Int → Bool → SState Pos Move → MMRes Move × SState Pos Move)
    (depth zkey : Nat) (origAlpha beta : Int) :
    List Move → Nat → Int → Option Move → Int → SState Pos Move →
    MMRes Move × SState Pos Move
  | [], _, bs, bm, _, st =>
    let flag := if origAlpha < bs ∧ bs < beta then FLAG_EXACT
      else if bs ≥ beta then FLAG_LOWER else FLAG_UPPER
    ((some bs, bm), ttStore st zkey bs flag depth bm)
  | m :: rest, i, bs, bm, alpha, st =>
    let r := childMax E rec depth alpha beta i m (bPush E st m)
    let st := bPop r.2
    match r.1.1 with
    | none => ((none, none), st)
    | some score =>
      let bs' := if score > bs then score else bs
      let bm' := if score > bs then some m else bm
      let alpha' := max alpha bs'
      if beta ≤ alpha' then
        let st :=
          if ¬E.isCapture st.board.cur m then
            { st with killers := updateKiller st.killers E.engineDepth depth m,
                      history := updateHistory E st.history m depth }
          else st
        let flag := if origAlpha < bs' ∧ bs' < beta then FLAG_EXACT
          else if bs' ≥ beta then FLAG_LOWER else FLAG_UPPER
        ((some bs', bm'), ttStore st zkey bs' flag depth bm')
      else searchMax E rec depth zkey origAlpha beta rest (i + 1) bs' bm' alpha' st

/-- The minimizing move loop (lines 911-942), with its negated child
windows, beta update, and the bound classification of lines 938-941. -/
def searchMin [DecidableEq Move] (E : Eng Pos Move)
    (rec : Nat → Int → Int → Bool → SState Pos Move → MMRes Move × SState Pos Move)
    (depth zkey : Nat) (origAlpha alpha : Int) :
    List Move → Nat → Int → Option Move → Int → SState Pos Move →
    MMRes Move × SState Pos Move
  | [], _, bs, bm, beta, st =>
    let flag := if origAlpha < bs ∧ bs < beta then FLAG_EXACT
      else if bs ≤ alpha then FLAG_UPPER else FLAG_LOWER
    ((some bs, bm), ttStore st zkey bs flag depth bm)
  | m :: rest, i, bs, bm, beta, st =>
    let r := childMin E rec depth alpha beta i m (bPush E st m)
    let st := bPop r.2
    match r.1.1 with
    | none => ((none, none), st)
    | some score =>
      let bs' := if score < bs then score else bs
      let bm' := if score < bs then some m else bm
      let beta' := min beta bs'
      if beta' ≤ alpha then
        let st :=
          if ¬E.isCapture st.board.cur m then
            { st with killers := updateKiller st.killers E.engineDepth depth m,
                      history := updateHistory E st.history m depth }
          else st
        let flag := if origAlpha < bs' ∧ bs' < beta' then FLAG_EXACT
          else if bs' ≤ alpha then FLAG_UPPER else FLAG_LOWER
        ((some bs', bm'), ttStore st zkey bs' flag depth bm')
      else searchMin E rec depth zkey origAlpha alpha rest (i + 1) bs' bm' beta' st

/-- Move generation, table-move promotion, ordering, and the two loops
(lines 865-942). -/
def mmMoves [DecidableEq Move] (E : Eng Pos Move)
    (rec : Nat → Int → Int → Bool → SState Pos Move → MMRes Move × SState Pos Move)
    (depth : Nat) (alpha beta : Int) (maximizing : Bool) (zkey : Nat)
    (ttMove : Option Move) (st : SState Pos Move) : MMRes Move × SState Pos Move :=
  let b := st.board.cur
  let legal := E.legalMoves b
  match legal with
  | [] => ((some (evaluateE E b st.evalDepth), none), st)
  | _ =>
    let legal := match ttMove with
      | some tm => if tm ∈ legal then tm :: legal.erase tm else legal
      | none => legal
    let moves := orderMoves E st.killers st.history b depth legal
    if maximizing then
      searchMax E rec depth zkey alpha beta moves 0 (-(10 ^ 9 : Int)) none alpha st
    else
      searchMin E rec depth zkey alpha alpha moves 0 ((10 ^ 9 : Int)) none beta st

/-- The continuation after the null-move search of lines 859-863: prune on
a fail-high null score, otherwise (including when the null search timed
out, whose sentinel the source discards here) proceed to the move loops on
the popped board. -/
def mmNullAfter [DecidableEq Move] (E : Eng Pos Move)
    (rec : Nat → Int → Int → Bool → SState Pos Move → MMRes Move × SState Pos Move)
    (depth : Nat) (alpha beta : Int) (maximizing : Bool) (zkey : Nat)
    (ttMove : Option Move) (rn : MMRes Move × SState Pos Move) :
    MMRes Move × SState Pos Move :=
  match rn.1.1 with
  | some ns =>
    if -ns ≥ beta then ((some beta, none), bPop rn.2)
    else mmMoves E rec depth alpha beta maximizing zkey ttMove (bPop rn.2)
  | none => mmMoves E rec depth alpha beta maximizing zkey ttMove (bPop rn.2)

/-- Null-move pruning (lines 853-863, R = 2) followed by the move loops:
when not in check, not in the endgame phase, with depth at least R + 1 and
alpha away from mate magnitudes, search a null move at reduced depth with
the negated zero-width window. -/
def mmMain [DecidableEq Move] (E : Eng Pos Move)
    (rec : Nat → Int → Int → Bool → SState Pos Move → MMRes Move × SState Pos Move)
    (depth : Nat) (alpha beta : Int) (maximizing : Bool) (zkey : Nat)
    (ttMove : Option Move) (st : SState Pos Move) : MMRes Move × SState Pos Move :=
  if depth ≥ 3 ∧ ¬E.isCheck st.board.cur ∧ ¬isEndgame E st.board.cur
      ∧ alpha.natAbs < 90000 then
    mmNullAfter E rec depth alpha beta maximizing zkey ttMove
      (rec (depth - 3) (-beta) (-beta + 1) (!maximizing) (bPushNull E st))
  else mmMoves E rec depth alpha beta maximizing zkey ttMove st

/-- The continuation after the transposition probe: early return on a
usable entry, leaf hand-off to quiescence (with the eval depth recorded on
the state first) at depth 0 or game over, then null-move pruning and the
move loops with the tightened window. -/
def mmAfterProbe [DecidableEq Move] (E : Eng Pos Move)
    (rec : Nat → Int → Int → Bool → SState Pos Move → MMRes Move × SState Pos Move)
    (depth : Nat) (maximizing : Bool) (zkey : Nat)
    (pr : Sum (Int × Option Move) (Int × Int × Option Move))
    (st : SState Pos Move) : MMRes Move × SState Pos Move :=
  match pr with
  | .inl r => ((some r.1, r.2), st)
  | .inr c =>
    if depth = 0 ∨ E.isGameOver st.board.cur then
      ((some (quiescence E E.qfuel c.1 c.2.1 (depth : Int)
          { st with evalDepth := (depth : Int) }).1, none),
        (quiescence E E.qfuel c.1 c.2.1 (depth : Int)
          { st with evalDepth := (depth : Int) }).2)
    else mmMain E rec depth c.1 c.2.1 maximizing zkey c.2.2 st

/-- One unfolding of TreeIA.minimax: node count and time check, repetition
check, then the transposition probe feeding `mmAfterProbe` (the recency
refresh of the probe is recorded on the state; the pure probe value is
written out twice where the source binds it once). -/
def mmBody [DecidableEq Move] (E : Eng Pos Move)
    (rec : Nat → Int → Int → Bool → SState Pos Move → MMRes Move × SState Pos Move)
    (depth : Nat) (alpha beta : Int) (maximizing : Bool) (st : SState Pos Move) :
    MMRes Move × SState Pos Move :=
  if (st.nodes + 1) % 2048 = 0 ∧ E.timeUp (st.nodes + 1) then
    ((none, none), { st with nodes := st.nodes + 1 })
  else if E.isRepetition2 st.board.cur then
    if (maximizing ∧ materialScore E st.board.cur > 100)
        ∨ (¬maximizing ∧ materialScore E st.board.cur < -100) then
      ((some (-200), none), { st with nodes := st.nodes + 1 })
    else ((some 0, none), { st with nodes := st.nodes + 1 })
  else
    mmAfterProbe E rec depth maximizing (E.zobrist st.board.cur)
      (ttProbe depth alpha beta (st.tt.get (E.zobrist st.board.cur)).1)
      { st with nodes := st.nodes + 1,
                tt := (st.tt.get (E.zobrist st.board.cur)).2 }

/-- TreeIA.minimax. Fuel makes the depth recursion structural; every
recursive call strictly decreases depth, so any fuel above the depth makes
the fuel branch unreachable. -/
def minimax [DecidableEq Move] (E : Eng Pos Move) :
    Nat → Nat → Int → Int → Bool → SState Pos Move → MMRes Move × SState Pos Move
  | 0, _, _, _, _, st => ((none, none), st)
  | fuel + 1, depth, alpha, beta, maximizing, st =>
    mmBody E (minimax E fuel) depth alpha beta maximizing st

/-! ### Iterative deepening (ia_tree.py lines 954-980) -/

/-- The one failure mode of a move decision: iterative_deepening raises
ValueError("Aucun coup legal disponible") on a position with no legal
move. -/
inductive SearchErr where
  | noLegalMove
deriving Repr, DecidableEq

/-- self.MAX_DEPTH. -/
def MAX_DEPTH : Nat := 10

/-- The deepening loop: run minimax at the current depth (with fuel one
above the depth, which every recursive call strictly decreases), keep the
move unless the iteration timed out or produced no move, stop once the
time-budget oracle fires. `iters` counts the remaining iterations of
`range(1, MAX_DEPTH + 1)`. -/
def idLoop [DecidableEq Move] (E : Eng Pos Move) :
    Nat → Nat → Move → Bool → SState Pos Move → Move × SState Pos Move
  | 0, _, best, _, st => (best, st)
  | iters + 1, curDepth, best, maxi, st =>
    let r := minimax E (curDepth + 1) curDepth (-(10 ^ 9 : Int)) ((10 ^ 9 : Int)) maxi st
    match r.1 with
    | (some _, some mv) =>
      if E.idStop curDepth then (mv, r.2)
      else idLoop E iters (curDepth + 1) mv maxi r.2
    | _ => (best, r.2)

/-- The fallback selection of iterative_deepening (lines 962-967): the
first non-repeating legal move, or the first legal move when every legal
move repeats. -/
def idFallback (E : Eng Pos Move) (root : Pos) (m0 : Move) : Move :=
  match (E.legalMoves root).filter (fun m => !isRepetitionMove E root m) with
  | n0 :: _ => n0
  | [] => m0

/-- TreeIA.iterative_deepening: reset the node counter, fail on a position
with no legal move, otherwise set the fallback to the first non-repeating
legal move (first legal move if all repeat) and deepen from depth 1. -/
def iterativeDeepening [DecidableEq Move] (E : Eng Pos Move)
    (st : SState Pos Move) : Except SearchErr Move × SState Pos Move :=
  let st := { st with nodes := 0 }
  let root := st.board.cur
  let maxi := E.turnWhite root
  match E.legalMoves root with
  | [] => (.error .noLegalMove, st)
  | m0 :: _ =>
    let r := idLoop E MAX_DEPTH 1 (idFallback E root m0) maxi st
    (.ok r.1, r.2)

/-! ### Learning manager (learning_manager.py) -/

/-- LearningManager.MAX_POSITIONS. -/
def MAX_POSITIONS : Nat := 200000

/-- The persistent and per-game learning state: the bounded value store,
the game record of (hash, san, intrinsic score) triples, the counters, and
the exploration rate. Floats are modelled as rationals
(LR = 0.15 = 3/20, GAMMA = 0.92 = 23/25, and so on). -/
structure LMState where
  positionValues : LRU Nat ℚ
  currentGameMoves : List (Nat × String × ℚ)
  gamesPlayed : Nat
  wins : Nat
  losses : Nat
  draws : Nat
  explorationRate : ℚ
deriving DecidableEq

/-- The default key of record_move and get_position_value_with_learning
when no zobrist_key argument is passed (as in every call TreeIA makes):
hash(board.fen()) & 0xFFFFFFFFFFFFFFFF, where hash is the process-salted
Python string hash. Masking a signed value is Int.emod into [0, 2^64). -/
def pyFenKey (E : Eng Pos Move) (p : Pos) : Nat :=
  ((E.pyHash (E.fen p)).emod (2 ^ 64)).toNat

/-- LearningManager.record_move (lines 176-181). -/
def recordMove (E : Eng Pos Move) (p : Pos) (mv : Move) (score : ℚ)
    (zobristKey : Option Nat) (lm : LMState) : LMState :=
  let key := match zobristKey with
    | some k => k
    | none => pyFenKey E p
  { lm with currentGameMoves := lm.currentGameMoves ++ [(key, E.san p mv, score)] }

/-- LearningManager._material_eval. -/
def materialEvalQ (E : Eng Pos Move) (p : Pos) : ℚ :=
  ([(1, 100), (2, 320), (3, 330), (4, 500), (5, 900)] : List (Nat × ℚ)).foldl
    (fun s pv =>
      s + pv.2 * ((E.numPieces p pv.1 true : ℚ) - (E.numPieces p pv.1 false : ℚ)))
    0

/-- The loop of LearningManager._backpropagate over the reversed game
record, with `i` the distance from the end of the game: discount the
reward by GAMMA to the i, read the stored value (seeding from the recorded
intrinsic score), and move it toward the discounted reward by LR. -/
def bpLoop (finalReward : ℚ) : Nat → List (Nat × String × ℚ) → LRU Nat ℚ → LRU Nat ℚ
  | _, [], pv => pv
  | i, e :: rest, pv =>
    let discounted := finalReward * (23 / 25 : ℚ) ^ i
    let g := pv.get e.1
    let old := g.1.getD e.2.2
    let pv := g.2.put e.1 (old + (3 / 20 : ℚ) * (discounted - old))
    bpLoop finalReward (i + 1) rest pv

/-- LearningManager._backpropagate (lines 242-250). -/
def backpropagate (finalReward : ℚ) (lm : LMState) : LMState :=
  { lm with positionValues := bpLoop finalReward 0 lm.currentGameMoves.reverse lm.positionValues }

/-- LearningManager.end_game (lines 183-230), without the _save I/O call
at its end (persistence is modelled separately as lmSave/lmLoad): result
and counter bookkeeping, the shaped reward
final_reward + material * 0.1 (material White-relative in the shaping
term), backpropagation, and exploration-rate decay. -/
def lmEndGame (E : Eng Pos Move) (result : String) (finalBoard : Pos)
    (color : Bool) (lm : LMState) : LMState :=
  let lm := { lm with gamesPlayed := lm.gamesPlayed + 1 }
  let frlm : ℚ × LMState :=
    if result = "1-0" then
      if color then ((1000 : ℚ), { lm with wins := lm.wins + 1 })
      else (-1000, { lm with losses := lm.losses + 1 })
    else if result = "0-1" then
      if color then (-1000, { lm with losses := lm.losses + 1 })
      else (1000, { lm with wins := lm.wins + 1 })
    else if result = "1/2-1/2" then (0, { lm with draws := lm.draws + 1 })
    else
      let mat := materialEvalQ E finalBoard
      let mat := if color = false then -mat else mat
      if mat > 150 then (300, { lm with wins := lm.wins + 1 })
      else if mat < -150 then (-300, { lm with losses := lm.losses + 1 })
      else (0, { lm with draws := lm.draws + 1 })
  let lm := frlm.2
  let mat := materialEvalQ E finalBoard
  let shaped := frlm.1 + mat * (1 / 10 : ℚ)
  let lm := backpropagate shaped lm
  { lm with explorationRate := max (1 / 20 : ℚ) (lm.explorationRate * (199 / 200 : ℚ)) }

/-- LearningManager.get_position_value_with_learning (lines 252-264). -/
def getPositionValueWithLearning (E : Eng Pos Move) (p : Pos) (baseScore : ℚ)
    (zobristKey : Option Nat) (lm : LMState) : ℚ × LMState :=
  let key := match zobristKey with
    | some k => k
    | none => pyFenKey E p
  let g := lm.positionValues.get key
  let lm := { lm with positionValues := g.2 }
  match g.1 with
  | some learned =>
    let weight := min (2 / 5 : ℚ) ((lm.gamesPlayed : ℚ) * (1 / 500))
    (baseScore * (1 - weight) + learned * weight, lm)
  | none => (baseScore, lm)

/-- The logical content of the document _save writes (lines 147-154):
keys serialized to their decimal numerals, plus the counters. The JSON
and file-system layers are external. -/
structure SaveData where
  positionValues : List (List Nat × ℚ)
  gamesPlayed : Nat
  wins : Nat
  losses : Nat
  draws : Nat
deriving DecidableEq

/-- LearningManager._save, logical part: position_values becomes
a str(k)-keyed document in store order. -/
def lmSave (lm : LMState) : SaveData :=
  { positionValues := lm.positionValues.data.map (fun kv => (natToDec kv.1, kv.2)),
    gamesPlayed := lm.gamesPlayed, wins := lm.wins,
    losses := lm.losses, draws := lm.draws }

/-- LearningManager._load, logical part (lines 114-127): keep the last
MAX_POSITIONS document entries, rebuild the store with int(k) keys by
plain dict assignment, restore the counters, and recompute the
exploration rate as EXPLORE_START * EXPLORE_DECAY ^ games_played floored
at EXPLORE_MIN. -/
def lmLoad (d : SaveData) : LMState :=
  let items := d.positionValues.drop (d.positionValues.length - MAX_POSITIONS)
  let pv := items.foldl (fun acc kv => dictSet acc (decToNat kv.1) kv.2) []
  { positionValues := ⟨MAX_POSITIONS, pv⟩,
    currentGameMoves := [],
    gamesPlayed := d.gamesPlayed, wins := d.wins,
    losses := d.losses, draws := d.draws,
    explorationRate := max (1 / 20 : ℚ) ((7 / 20 : ℚ) * (199 / 200 : ℚ) ^ d.gamesPlayed) }

/-! ### Opening book (ia_tree.py lines 162-274) -/

/-- OPENING_BOOK: FEN-keyed lists of SAN candidates. -/
def OPENING_BOOK : List (String × List String) := [
  ("rnbqkbnr/pppppppp/8/8/8/8/PPPPPPPP/RNBQKBNR w KQkq - 0 1",
    ["e4", "d4", "c4", "Nf3", "g3", "b3"]),
  ("rnbqkbnr/pppppppp/8/8/4P3/8/PPPP1PPP/RNBQKBNR b KQkq - 0 1",
    ["e5", "c5", "e6", "c6", "d6", "g6", "d5"]),
  ("rnbqkbnr/pppppppp/8/8/3P4/8/PPP1PPPP/RNBQKBNR b KQkq - 0 1",
    ["d5", "Nf6", "e6", "f5", "c5", "g6"]),
  ("rnbqkbnr/pppppppp/8/8/2P5/8/PP1PPPPP/RNBQKBNR b KQkq - 0 1",
    ["e5", "c5", "Nf6", "e6", "g6", "c6"]),
  ("rnbqkbnr/pppppppp/8/8/8/5N2/PPPPPPPP/RNBQKB1R b KQkq - 0 1",
    ["d5", "Nf6", "c5", "g6", "e6"]),
  ("rnbqkbnr/pppp1ppp/8/4p3/4P3/8/PPPP1PPP/RNBQKBNR w KQkq - 0 2",
    ["Nf3", "Nc3", "Bc4", "f4", "d4"]),
  ("rnbqkbnr/pppp1ppp/8/4p3/4P3/5N2/PPPP1PPP/RNBQKB1R b KQkq - 0 2",
    ["Nc6", "Nf6", "d6", "f5"]),
  ("r1bqkbnr/pppp1ppp/2n5/4p3/4P3/5N2/PPPP1PPP/RNBQKB1R w KQkq - 0 3",
    ["Bb5", "Bc4", "d4", "Nc3"]),
  ("rnbqkbnr/pp1ppppp/8/2p5/4P3/8/PPPP1PPP/RNBQKBNR w KQkq - 0 2",
    ["Nf3", "Nc3", "d4", "c3"]),
  ("rnbqkbnr/pp1ppppp/8/2p5/4P3/5N2/PPPP1PPP/RNBQKB1R b KQkq - 0 2",
    ["d6", "Nc6", "e6", "g6"]),
  ("rnbqkbnr/pppp1ppp/4p3/8/4P3/8/PPPP1PPP/RNBQKBNR w KQkq - 0 2",
    ["d4", "Nf3", "Nc3", "d3"]),
  ("rnbqkbnr/pppp1ppp/4p3/8/3PP3/8/PPP2PPP/RNBQKBNR b KQkq - 0 2",
    ["d5", "Nf6", "c5", "b6"]),
  ("rnbqkbnr/pp1ppppp/2p5/8/4P3/8/PPPP1PPP/RNBQKBNR w KQkq - 0 2",
    ["d4", "Nf3", "Nc3", "d3"]),
  ("rnbqkbnr/ppp1pppp/3p4/8/4P3/8/PPPP1PPP/RNBQKBNR w KQkq - 0 2",
    ["d4", "Nf3", "Nc3", "f4"]),
  ("rnbqkbnr/ppp1pppp/8/3p4/4P3/8/PPPP1PPP/RNBQKBNR w KQkq - 0 2",
    ["exd5", "Nc3", "e5"]),
  ("rnbqkbnr/ppp1pppp/8/3p4/3P4/8/PPP1PPPP/RNBQKBNR w KQkq - 0 2",
    ["c4", "Nf3", "Nc3", "Bf4", "e3"]),
  ("rnbqkbnr/ppp1pppp/8/3p4/2PP4/8/PP2PPPP/RNBQKBNR b KQkq - 0 2",
    ["e6", "c6", "dxc4", "Nf6", "e5"]),
  ("rnbqkb1r/pppppppp/5n2/8/3P4/8/PPP1PPPP/RNBQKBNR w KQkq - 0 2",
    ["c4", "Nf3", "Bg5", "e3", "f3"]),
  ("rnbqkb1r/pppppppp/5n2/8/2PP4/8/PP2PPPP/RNBQKBNR b KQkq - 0 2",
    ["g6", "e6", "c5", "d5", "c6"]),
  ("rnbqkbnr/ppppp1pp/8/5p2/3P4/8/PPP1PPPP/RNBQKBNR w KQkq - 0 2",
    ["g3", "Nf3", "c4", "Bg5", "e3"])]

/-- The `fen in OPENING_BOOK` lookup. -/
def bookLookup (fen : String) : Option (List String) :=
  assocFind OPENING_BOOK fen

/-- The candidate loop of TreeIA.get_opening_move: try each SAN in the
sampled order; push_san failures (ValueError) move on to the next; a
success is converted back to SAN on the original board. -/
def firstParse (E : Eng Pos Move) (p : Pos) : List String → Option String
  | [] => none
  | c :: rest =>
    match E.parseSan p c with
    | some mv => some (E.san p mv)
    | none => firstParse E p rest

/-- TreeIA.get_opening_move (lines 985-995). -/
def getOpeningMove (E : Eng Pos Move) (p : Pos) : Option String :=
  match bookLookup (E.fen p) with
  | some cands => firstParse E p (E.sample cands)
  | none => none

/-! ### The TreeIA object and coup (ia_tree.py lines 1000-1075) -/

/-- The engine attributes outside the search state: the opening-move
counter, the per-piece move counter, and the learning manager (None when
learning is disabled). -/
structure IAState (Pos Move : Type) where
  search : SState Pos Move
  openingMovesPlayed : Nat
  pieceMoveCount : List (Nat × Nat)
  learning : Option LMState
deriving DecidableEq

/-- The killer table as reinitialized at each coup:
[[None, None] for _ in range(MAX_DEPTH + 2)]. -/
def freshKillers {Move : Type} : List (Option Move × Option Move) :=
  List.replicate (MAX_DEPTH + 2) (none, none)

/-- TreeIA._track_piece_move (lines 1035-1050). -/
def trackPieceMove (E : Eng Pos Move) (p : Pos) (m : Move)
    (pmc : List (Nat × Nat)) : List (Nat × Nat) :=
  if E.ply p > 40 then pmc
  else
    match E.pieceAt p (E.fromSq m) with
    | some pt =>
      if pt = 2 ∨ pt = 3 then
        let dest := E.toSq m
        let pmc := dictSet pmc dest ((assocFind pmc dest).getD 0 + 1)
        match assocFind pmc (E.fromSq m) with
        | some oldCount =>
          let pmc := removeKey pmc (E.fromSq m)
          dictSet pmc dest (max ((assocFind pmc dest).getD 0) (oldCount + 1))
        | none => pmc
      else pmc
    | none => pmc

/-- The main-search tail of TreeIA.coup (lines 1027-1033): deepen, track
the piece move, record the move for learning with the current evaluation,
and return the SAN of the chosen move on the board object (restored to
the root by the balanced search). -/
def coupSearch [DecidableEq Move] (E : Eng Pos Move) (ia : IAState Pos Move) :
    Except SearchErr String × IAState Pos Move :=
  let r := iterativeDeepening E ia.search
  match r.1 with
  | .error e => (.error e, { ia with search := r.2 })
  | .ok mv =>
    let st := r.2
    let cur := st.board.cur
    let pmc := trackPieceMove E cur mv ia.pieceMoveCount
    let learning := match ia.learning with
      | some lm => some (recordMove E cur mv ((evaluateE E cur st.evalDepth : Int) : ℚ) none lm)
      | none => none
    (.ok (E.san cur mv), { ia with search := st, pieceMoveCount := pmc, learning := learning })

/-- The exploration branch of TreeIA.coup (lines 1016-1024): a random
legal move, preferring non-repeating ones, tracked and recorded. -/
def coupExplore [DecidableEq Move] (E : Eng Pos Move) (p : Pos)
    (ia : IAState Pos Move) (lm : LMState) :
    Except SearchErr String × IAState Pos Move :=
  match E.legalMoves p with
  | [] => coupSearch E ia
  | m0 :: _ =>
    let legal := E.legalMoves p
    let nonRep := legal.filter (fun m => !isRepetitionMove E p m)
    let cand := if nonRep.isEmpty then legal else nonRep
    let mv := (E.choice cand).getD m0
    let pmc := trackPieceMove E p mv ia.pieceMoveCount
    let lm := recordMove E p mv ((evaluateE E p ia.search.evalDepth : Int) : ℚ) none lm
    (.ok (E.san p mv), { ia with pieceMoveCount := pmc, learning := some lm })

/-- TreeIA.coup after the opening-book block: exploration when learning is
enabled and the epsilon draw fires, otherwise the main search. -/
def coupAfterBook [DecidableEq Move] (E : Eng Pos Move) (p : Pos)
    (ia : IAState Pos Move) : Except SearchErr String × IAState Pos Move :=
  match ia.learning with
  | some lm => if E.explore then coupExplore E p ia lm else coupSearch E ia
  | none => coupSearch E ia

/-- TreeIA.coup (lines 1000-1033): bind the board, reset the killer table,
consult the opening book during the first 12 opening moves (a miss
disables it by setting the counter to 12), then explore or search. -/
def coup [DecidableEq Move] (E : Eng Pos Move) (p : Pos)
    (ia : IAState Pos Move) : Except SearchErr String × IAState Pos Move :=
  let ia := { ia with search := { ia.search with board := ⟨p, []⟩, killers := freshKillers } }
  if ia.openingMovesPlayed < 12 then
    match getOpeningMove E p with
    | some s => (.ok s, { ia with openingMovesPlayed := ia.openingMovesPlayed + 1 })
    | none => coupAfterBook E p { ia with openingMovesPlayed := 12 }
  else coupAfterBook E p ia

/-- TreeIA.end_game (lines 1052-1070): learning-manager end_game when a
color is supplied (the final board defaulting to the engine's own board),
start_new_game, and the per-game resets: opening counter, transposition
table, history table, piece-move counter. The killer table is not touched
here (coup resets it). -/
def treeEndGame (E : Eng Pos Move) (result : String) (boardArg : Option Pos)
    (color : Option Bool) (ia : IAState Pos Move) : IAState Pos Move :=
  let ia := match ia.learning with
    | some lm =>
      let finalBoard := boardArg.getD ia.search.board.cur
      let lm := match color with
        | some c => lmEndGame E result finalBoard c lm
        | none => lm
      { ia with learning := some { lm with currentGameMoves := [] } }
    | none => ia
  { ia with openingMovesPlayed := 0,
            search := { ia.search with tt := ia.search.tt.clear, history := [] },
            pieceMoveCount := [] }

/-- TreeIA.TT_SIZE. -/
def TT_SIZE : Nat := 400000

/-- The search state of a freshly constructed TreeIA bound to a board. -/
def initSState (p : Pos) : SState Pos Move :=
  { board := ⟨p, []⟩, tt := ⟨TT_SIZE, []⟩, killers := freshKillers,
    history := [], nodes := 0, evalDepth := 0, putLog := [] }

/-! ### Concrete miniature instances

Small, fully concrete engines over Pos = Move = Nat on which the general
theorems can be instantiated and evaluated. -/

/-- A one-move-per-position game: every position has the single legal move
0, nothing is a capture or terminal, White is always to move, the clock
never expires, and deepening stops after depth 1. -/
def toyBase : Eng Nat Nat :=
  { legalMoves := fun _ => [0]
    push := fun p _ => p + 1
    nullPush := fun p => p + 1
    isCapture := fun _ _ => false
    isCheck := fun _ => false
    isCheckmate := fun _ => false
    isDrawTerminal := fun _ => false
    isGameOver := fun _ => false
    isRepetition2 := fun _ => false
    turnWhite := fun _ => true
    numPieces := fun _ _ _ => 0
    pieceAt := fun _ _ => none
    ply := fun _ => 0
    fromSq := fun m => m
    toSq := fun m => m
    promo := fun _ => none
    staticEval := fun _ => 0
    zobrist := fun _ => 0
    fen := fun _ => "toy"
    san := fun _ _ => "a3"
    parseSan := fun _ _ => none
    pyHash := fun _ => 0
    engineDepth := 4
    qfuel := 1
    timeUp := fun _ => false
    idStop := fun _ => true
    sample := fun l => l
    choice := fun l => l.head?
    explore := false }

/-- Every position checkmates the side to move. -/
def toyMate : Eng Nat Nat :=
  { toyBase with isCheckmate := fun _ => true, isGameOver := fun _ => true,
                 legalMoves := fun _ => [] }

/-- Every position is a twice-seen repetition. -/
def toyRep : Eng Nat Nat :=
  { toyBase with isRepetition2 := fun _ => true }

/-- A twice-seen repetition where White (to move and maximizing) is two
pawns up. -/
def toyRepAhead : Eng Nat Nat :=
  { toyBase with isRepetition2 := fun _ => true,
                 numPieces := fun _ pt c => if pt = 1 ∧ c then 2 else 0 }

/-- The standard starting position by FEN, whose book candidate e4 parses
to the legal move 0. -/
def toyBook : Eng Nat Nat :=
  { toyBase with
    fen := fun _ => "rnbqkbnr/pppppppp/8/8/8/8/PPPPPPPP/RNBQKBNR w KQkq - 0 1",
    parseSan := fun _ s => if s = "e4" then some 0 else none }

/-- An initial search state rooted at position 0. -/
def st0 : SState Nat Nat := initSState 0

/-- The same game with an expired clock. -/
def toyTime : Eng Nat Nat := { toyBase with timeUp := fun _ => true }

/-- A search state one node short of the periodic time check. -/
def stT : SState Nat Nat := { st0 with nodes := 2047 }

/-- A fresh learning state (EXPLORE_START = 0.35). -/
def lm0 : LMState :=
  { positionValues := ⟨MAX_POSITIONS, []⟩, currentGameMoves := [],
    gamesPlayed := 0, wins := 0, losses := 0, draws := 0,
    explorationRate := 7 / 20 }

/-- An engine object past the opening phase with learning disabled. -/
def ia0 : IAState Nat Nat :=
  { search := st0, openingMovesPlayed := 12, pieceMoveCount := [], learning := none }

/-- An engine object in the opening phase with a nonempty history table. -/
def iaC7 : IAState Nat Nat :=
  { search := { st0 with history := [((0, 0), 7)] },
    openingMovesPlayed := 0, pieceMoveCount := [], learning := none }

/-- A learning state whose stored value for key 5 already equals the
shaped target 1000 of a 1-0 result on a materially empty final board,
with exactly that position recorded last. -/
def lmC8 : LMState :=
  { positionValues := ⟨MAX_POSITIONS, [(5, 1000)]⟩,
    currentGameMoves := [(5, "e4", 0)],
    gamesPlayed := 0, wins := 0, losses := 0, draws := 0,
    explorationRate := 7 / 20 }

/-- A learning state with an empty store and one recorded move, whose
seed value 0 differs from the shaped target 1000 of a 1-0 result on a
materially empty final board. -/
def lmW : LMState :=
  { positionValues := ⟨MAX_POSITIONS, []⟩,
    currentGameMoves := [(5, "e4", 0)],
    gamesPlayed := 0, wins := 0, losses := 0, draws := 0,
    explorationRate := 7 / 20 }

/-- Zobrist tables in which only the side-to-move constant is nonzero. -/
def zt0 : ZTables :=
  { piece := fun _ _ _ => 0, turnKey := 1, castling := fun _ => 0, ep := fun _ => 0 }

/-- An empty board, White to move, full castling rights. -/
def zb1 : ZBoard :=
  { pieceAt := fun _ => none, turn := true, castlingRights := 15,
    epSquare := none, halfmoveClock := 0, fullmoveNumber := 1 }

/-- The same position with different move counters (a different FEN
string, the same Zobrist inputs). -/
def zb2 : ZBoard :=
  { zb1 with halfmoveClock := 99, fullmoveNumber := 42 }

/-! ### Specification predicates for the transposition-table invariant -/

/-- A move is legal for a hash key when it is legal in every position
with that Zobrist hash. -/
def LegalFor (E : Eng Pos Move) (k : Nat) (m : Move) : Prop :=
  ∀ p, E.zobrist p = k → m ∈ E.legalMoves p

/-- Every move stored in the transposition table is legal for the key it
is stored under. -/
def TTInv (E : Eng Pos Move) (tt : LRU Nat (TTEntry Move)) : Prop :=
  ∀ ke ∈ tt.data, ∀ m, ke.2.move = some m → LegalFor E ke.1 m

/-! ## Lemmas: association lists and the LRU model -/

theorem assocFind_eq_none_of_not_mem {K V : Type} [DecidableEq K]
    {l : List (K × V)} {k : K} (h : k ∉ l.map Prod.fst) :
    assocFind l k = none := by
  induction l with
  | nil => rfl
  | cons kv rest ih =>
    simp only [List.map_cons, List.mem_cons, not_or] at h
    have hne : ¬ kv.1 = k := fun e => h.1 (Eq.symm e)
    simp only [assocFind, if_neg hne]
    exact ih h.2

theorem removeKey_length_le {K V : Type} [DecidableEq K]
    (l : List (K × V)) (k : K) : (removeKey l k).length ≤ l.length := by
  induction l with
  | nil => simp [removeKey]
  | cons kv rest ih =>
    simp only [removeKey]
    split
    · exact Nat.le_succ_of_le ih
    · simpa using Nat.succ_le_succ ih

theorem removeKey_length_lt {K V : Type} [DecidableEq K]
    {l : List (K × V)} {k : K} {v : V} (h : assocFind l k = some v) :
    (removeKey l k).length < l.length := by
  induction l with
  | nil => simp [assocFind] at h
  | cons kv rest ih =>
    simp only [assocFind] at h
    simp only [removeKey]
    by_cases hk : kv.1 = k
    · simp only [if_pos hk]
      exact Nat.lt_succ_of_le (removeKey_length_le rest k)
    · simp only [if_neg hk] at h ⊢
      simpa using Nat.succ_lt_succ (ih h)

theorem LRU.get_maxSize {K V : Type} [DecidableEq K] (t : LRU K V) (k : K) :
    ((t.get k).2).maxSize = t.maxSize := by
  unfold LRU.get
  cases assocFind t.data k <;> rfl

theorem LRU.put_maxSize {K V : Type} [DecidableEq K] (t : LRU K V) (k : K) (v : V) :
    (t.put k v).maxSize = t.maxSize := by
  unfold LRU.put
  cases assocFind t.data k <;> rfl

theorem LRU.get_length_le {K V : Type} [DecidableEq K] (t : LRU K V) (k : K) :
    ((t.get k).2).data.length ≤ t.data.length := by
  unfold LRU.get
  cases h : assocFind t.data k with
  | none => simp
  | some v =>
    simp only [List.length_append, List.length_singleton]
    have := removeKey_length_lt h
    omega

theorem LRU.put_length_le {K V : Type} [DecidableEq K] (t : LRU K V) (k : K) (v : V)
    (hmax : 1 ≤ t.maxSize) (hlen : t.data.length ≤ t.maxSize) :
    (t.put k v).data.length ≤ t.maxSize := by
  unfold LRU.put
  cases h : assocFind t.data k with
  | some w =>
    simp only [List.length_append, List.length_singleton]
    have := removeKey_length_lt h
    omega
  | none =>
    simp only []
    split
    · simp only [List.length_append, List.length_singleton, List.length_tail]
      omega
    · simp only [List.length_append, List.length_singleton]
      omega

theorem LRU.applyOps_length {K V : Type} [DecidableEq K] (ops : List (LRUOp K V)) :
    ∀ (t : LRU K V), 1 ≤ t.maxSize → t.data.length ≤ t.maxSize →
      ((t.applyOps ops).data).length ≤ t.maxSize := by
  induction ops with
  | nil => intro t _ h2; exact h2
  | cons op rest ih =>
    intro t h1 h2
    cases op with
    | get k =>
      simp only [LRU.applyOps]
      have h1' : 1 ≤ ((t.get k).2).maxSize := by rw [LRU.get_maxSize]; exact h1
      have h2' : ((t.get k).2).data.length ≤ ((t.get k).2).maxSize := by
        rw [LRU.get_maxSize]; exact le_trans (LRU.get_length_le t k) h2
      have := ih _ h1' h2'
      rwa [LRU.get_maxSize] at this
    | put k v =>
      simp only [LRU.applyOps]
      have h1' : 1 ≤ (t.put k v).maxSize := by rw [LRU.put_maxSize]; exact h1
      have h2' : (t.put k v).data.length ≤ (t.put k v).maxSize := by
        rw [LRU.put_maxSize]; exact LRU.put_length_le t k v h1 h2
      have := ih _ h1' h2'
      rwa [LRU.put_maxSize] at this

theorem LRU.put_fresh {K V : Type} [DecidableEq K] (t : LRU K V) (kv : K × V)
    (hfresh : assocFind t.data kv.1 = none) (hroom : t.data.length < t.maxSize) :
    t.put kv.1 kv.2 = { t with data := t.data ++ [kv] } := by
  unfold LRU.put
  rw [hfresh]
  simp only [if_neg (by omega : ¬ t.maxSize ≤ t.data.length)]

theorem LRU.putAll_fill {K V : Type} [DecidableEq K] (l : List (K × V)) :
    ∀ (t : LRU K V), t.data.length + l.length ≤ t.maxSize →
      (((t.data ++ l).map Prod.fst).Nodup) →
      t.putAll l = { t with data := t.data ++ l } := by
  induction l with
  | nil => intro t _ _; simp [LRU.putAll]
  | cons kv rest ih =>
    intro t hlen hnd
    have hmem : kv.1 ∉ t.data.map Prod.fst := by
      intro hm
      rw [List.map_append] at hnd
      rcases List.nodup_append.mp hnd with ⟨_, _, hdisj⟩
      exact hdisj hm (by simp)
    have hfresh := assocFind_eq_none_of_not_mem hmem
    have hput := LRU.put_fresh t kv hfresh (by simp at hlen; omega)
    simp only [LRU.putAll, List.foldl_cons] at *
    rw [hput]
    have hres := ih { t with data := t.data ++ [kv] }
      (by simp at hlen ⊢; omega)
      (by rw [List.append_assoc]; simpa using hnd)
    rw [hres]
    simp

theorem tail_append_of_ne_nil {A : Type} {l : List A} (l' : List A)
    (h : l ≠ []) : (l ++ l').tail = l.tail ++ l' := by
  cases l with
  | nil => exact absurd rfl h
  | cons a rest => simp

theorem LRU.putAll_evict {K V : Type} [DecidableEq K] (l : List (K × V)) :
    ∀ (kv : K × V) (t : LRU K V), t.data ≠ [] →
      t.data.length + l.length + 1 = t.maxSize + 1 →
      (((t.data ++ kv :: l).map Prod.fst).Nodup) →
      (t.putAll (kv :: l)).data = (t.data ++ kv :: l).tail := by
  induction l with
  | nil =>
    intro kv t hne hlen hnd
    have hmem : kv.1 ∉ t.data.map Prod.fst := by
      intro hm
      rw [List.map_append] at hnd
      rcases List.nodup_append.mp hnd with ⟨_, _, hdisj⟩
      exact hdisj hm (by simp)
    have hfresh := assocFind_eq_none_of_not_mem hmem
    have hlen' : t.maxSize ≤ t.data.length := by simp at hlen; omega
    simp only [LRU.putAll, List.foldl_cons, List.foldl_nil]
    unfold LRU.put
    rw [hfresh]
    simp only [if_pos hlen']
    rw [tail_append_of_ne_nil _ hne]
  | cons kv' rest ih =>
    intro kv t hne hlen hnd
    have hmem : kv.1 ∉ t.data.map Prod.fst := by
      intro hm
      rw [List.map_append] at hnd
      rcases List.nodup_append.mp hnd with ⟨_, _, hdisj⟩
      exact hdisj hm (by simp)
    have hfresh := assocFind_eq_none_of_not_mem hmem
    have hput := LRU.put_fresh t kv hfresh (by simp at hlen ⊢; omega)
    simp only [LRU.putAll, List.foldl_cons] at *
    rw [hput]
    have hres := ih kv' { t with data := t.data ++ [kv] }
      (by simp)
      (by simp at hlen ⊢; omega)
      (by rw [List.append_assoc]; simpa using hnd)
    simp only [List.foldl_cons] at hres
    rw [hres, List.append_assoc]
    simp

theorem LRU.get_refresh {K V : Type} [DecidableEq K] {t : LRU K V} {k : K} {v : V}
    (h : assocFind t.data k = some v) :
    ((t.get k).2).data.getLast? = some (k, v) := by
  unfold LRU.get
  rw [h]
  exact List.getLast?_concat _

theorem LRU.put_refresh {K V : Type} [DecidableEq K] (t : LRU K V) (k : K) (v : V) :
    ((t.put k v).data).getLast? = some (k, v) := by
  unfold LRU.put
  cases assocFind t.data k with
  | some w => exact List.getLast?_concat _
  | none => exact List.getLast?_concat _

/-- C4: for every sequence of get/put operations the transposition table
never holds more entries than its configured capacity; inserting
capacity + 1 distinct keys into an empty table leaves exactly the later
keys, the least-recently-accessed (first) key having been evicted; and
both get on a present key and put leave the accessed key in the
most-recently-used position (strict LRU). -/
theorem claim_C4 {K V : Type} [DecidableEq K] :
    (∀ (t : LRU K V) (ops : List (LRUOp K V)), 1 ≤ t.maxSize →
        t.data.length ≤ t.maxSize → ((t.applyOps ops).data).length ≤ t.maxSize)
    ∧ (∀ (cap : Nat) (kv₀ : K × V) (rest : List (K × V)), 1 ≤ cap →
        rest.length = cap → (((kv₀ :: rest).map Prod.fst).Nodup) →
        (LRU.putAll ⟨cap, []⟩ (kv₀ :: rest)).data = rest ∧
          assocFind (LRU.putAll ⟨cap, []⟩ (kv₀ :: rest)).data kv₀.1 = none)
    ∧ (∀ (t : LRU K V) (k : K) (v : V), assocFind t.data k = some v →
        ((t.get k).2).data.getLast? = some (k, v))
    ∧ (∀ (t : LRU K V) (k : K) (v : V),
        ((t.put k v).data).getLast? = some (k, v)) := by
  refine ⟨fun t ops h1 h2 => LRU.applyOps_length ops t h1 h2, ?_,
    fun _ _ _ h => LRU.get_refresh h, fun t k v => LRU.put_refresh t k v⟩
  intro cap kv₀ rest h1 hlen hnd
  have hput0 : (⟨cap, []⟩ : LRU K V).put kv₀.1 kv₀.2 = ⟨cap, [kv₀]⟩ := by
    have := LRU.put_fresh (⟨cap, []⟩ : LRU K V) kv₀ rfl (by simpa using h1)
    simpa using this
  cases rest with
  | nil => simp at hlen; omega
  | cons kv₁ rest' =>
    have hstep : LRU.putAll (⟨cap, []⟩ : LRU K V) (kv₀ :: kv₁ :: rest')
        = LRU.putAll (⟨cap, [kv₀]⟩ : LRU K V) (kv₁ :: rest') := by
      simp only [LRU.putAll, List.foldl_cons, hput0]
    have hev := LRU.putAll_evict rest' kv₁ (⟨cap, [kv₀]⟩ : LRU K V)
      (by simp)
      (by simp at hlen ⊢; omega)
      (by simpa using hnd)
    have hdata : (LRU.putAll (⟨cap, []⟩ : LRU K V) (kv₀ :: kv₁ :: rest')).data
        = kv₁ :: rest' := by
      rw [hstep, hev]; simp
    refine ⟨hdata, ?_⟩
    rw [hdata]
    apply assocFind_eq_none_of_not_mem
    have := hnd
    simp only [List.map_cons, List.nodup_cons] at this
    exact this.1

/-- Witness for C4 at capacity 2 with the three distinct keys 0, 1, 2:
key 0 is evicted and the table holds keys 1 and 2. -/
theorem claim_C4_witness :
    ((LRU.putAll (⟨2, []⟩ : LRU Nat Nat) [(0, 10), (1, 11), (2, 12)]).data
        = [(1, 11), (2, 12)]) ∧
      assocFind (LRU.putAll (⟨2, []⟩ : LRU Nat Nat)
        [(0, 10), (1, 11), (2, 12)]).data 0 = none := by
  have h := (claim_C4 (K := Nat) (V := Nat)).2.1 2 (0, 10) [(1, 11), (2, 12)]
    (by decide) (by decide) (by decide)
  exact h

/-! ## Claims about evaluation, the repetition check, and the hash -/

/-- C6: for every position in which the side to move is checkmated, the
evaluator returns -99000 minus the depth bonus, and between two such
positions evaluated during one search the score is strictly more negative
for the shallower mate, that is, the one with the larger remaining depth
(the depth bonus quiescence passes down). -/
theorem claim_C6 {Pos Move : Type} (E : Eng Pos Move) :
    (∀ (p : Pos) (d : Int), E.isCheckmate p = true → evaluateE E p d = -99000 - d)
    ∧ (∀ (p₁ p₂ : Pos) (d₁ d₂ : Int), E.isCheckmate p₁ = true →
        E.isCheckmate p₂ = true → d₂ < d₁ →
        evaluateE E p₁ d₁ < evaluateE E p₂ d₂) := by
  constructor
  · intro p d h
    simp [evaluateE, h]
  · intro p₁ p₂ d₁ d₂ h1 h2 hd
    simp only [evaluateE, h1, h2, if_true]
    omega

/-- Witness for C6: on an engine in which every position is checkmate, the
score at remaining depth 3 is -99003 and is strictly below the score at
remaining depth 0. -/
theorem claim_C6_witness :
    evaluateE toyMate 0 3 = -99000 - 3
      ∧ evaluateE toyMate 0 3 < evaluateE toyMate 1 0 := by
  exact ⟨(claim_C6 toyMate).1 0 3 rfl,
    (claim_C6 toyMate).2 0 1 3 0 rfl rfl (by decide)⟩

/-- C5: at every search node whose position has already been seen twice,
minimax returns immediately without deeper search or table write: score 0
(a forced draw) when the searching side holds no material advantage, and
the small negative score -200 when it does (maximizing with material above
100, or minimizing with material below -100). The node-count increment is
the only state change; the hypothesis excludes the cooperative time check
that precedes the repetition check in the code. -/
theorem claim_C5 {Pos Move : Type} [DecidableEq Move] (E : Eng Pos Move)
    (fuel depth : Nat) (alpha beta : Int) (maximizing : Bool)
    (st : SState Pos Move)
    (hrep : E.isRepetition2 st.board.cur = true)
    (htime : ¬((st.nodes + 1) % 2048 = 0 ∧ E.timeUp (st.nodes + 1) = true)) :
    (((maximizing = true ∧ materialScore E st.board.cur > 100) ∨
        (¬maximizing = true ∧ materialScore E st.board.cur < -100)) →
      minimax E (fuel + 1) depth alpha beta maximizing st
        = ((some (-200), none), { st with nodes := st.nodes + 1 }))
    ∧ (¬(((maximizing = true ∧ materialScore E st.board.cur > 100) ∨
        (¬maximizing = true ∧ materialScore E st.board.cur < -100))) →
      minimax E (fuel + 1) depth alpha beta maximizing st
        = ((some 0, none), { st with nodes := st.nodes + 1 })) := by
  constructor
  · intro hcond
    simp only [minimax, mmBody]
    rw [if_neg htime, if_pos hrep, if_pos hcond]
  · intro hcond
    simp only [minimax, mmBody]
    rw [if_neg htime, if_pos hrep, if_neg hcond]

/-- Witness for C5 on an engine whose root is a twice-seen repetition with
no material advantage: the search returns score 0 at once. -/
theorem claim_C5_witness :
    minimax toyRep 2 1 (-(10 ^ 9 : Int)) ((10 ^ 9 : Int)) true st0
      = ((some 0, none), { st0 with nodes := 1 }) := by
  exact (claim_C5 toyRep 1 1 (-(10 ^ 9 : Int)) ((10 ^ 9 : Int)) true st0 rfl
    (by decide)).2 (by decide)

/-- C3: the Zobrist hash is a pure function of occupancy, side to move,
the castling-rights nibble, and the en-passant file, for any fixed table
constants (which the fixed seed makes identical across runs) — two boards
agreeing on those features hash identically, whatever their move
counters. The learning store, however, is keyed differently: the key that
record_move derives when TreeIA passes no zobrist_key is
pyFenKey = hash(board.fen()) masked to 64 bits, a function of the salted
Python string hash of the FEN text, not of zobrist_hash. -/
theorem claim_C3 :
    (∀ (T : ZTables) (b₁ b₂ : ZBoard),
      (∀ sq, sq < 64 → b₁.pieceAt sq = b₂.pieceAt sq) →
      b₁.turn = b₂.turn →
      b₁.castlingRights &&& 0xF = b₂.castlingRights &&& 0xF →
      b₁.epSquare.map (· % 8) = b₂.epSquare.map (· % 8) →
      zobristHash T b₁ = zobristHash T b₂)
    ∧ (∀ (Pos Move : Type) (E : Eng Pos Move) (p : Pos) (mv : Move)
        (score : ℚ) (lm : LMState),
        (recordMove E p mv score none lm).currentGameMoves
          = lm.currentGameMoves ++ [(pyFenKey E p, E.san p mv, score)]) := by
  constructor
  · intro T b₁ b₂ hpiece hturn hcast hep
    unfold zobristHash
    have hfold : (List.range 64).foldl
        (fun h sq => match b₁.pieceAt sq with
          | some pc => h ^^^ T.piece pc.1 pc.2 sq
          | none => h) 0
        = (List.range 64).foldl
        (fun h sq => match b₂.pieceAt sq with
          | some pc => h ^^^ T.piece pc.1 pc.2 sq
          | none => h) 0 := by
      apply List.foldl_ext
      intro a sq hsq
      rw [hpiece sq (List.mem_range.mp hsq)]
    rw [hfold, hturn, hcast]
    cases h₁ : b₁.epSquare with
    | none =>
      cases h₂ : b₂.epSquare with
      | none => rfl
      | some s₂ =>
        rw [h₁, h₂] at hep
        exact absurd hep (by simp)
    | some s₁ =>
      cases h₂ : b₂.epSquare with
      | none =>
        rw [h₁, h₂] at hep
        exact absurd hep (by simp)
      | some s₂ =>
        rw [h₁, h₂] at hep
        have hmod : s₁ % 8 = s₂ % 8 := by simpa using hep
        simp [hmod]
  · intro Pos Move E p mv score lm
    rfl

/-- Witness for C3: two boards differing only in their move counters (a
different FEN text) hash identically, and record_move on a concrete
engine appends precisely the pyFenKey-keyed entry. -/
theorem claim_C3_witness :
    zobristHash zt0 zb1 = zobristHash zt0 zb2
      ∧ (recordMove toyBase 0 0 5 none lm0).currentGameMoves
          = [(pyFenKey toyBase 0, "a3", 5)] := by
  constructor
  · exact claim_C3.1 zt0 zb1 zb2 (fun _ _ => rfl) rfl rfl rfl
  · have h := claim_C3.2 Nat Nat toyBase 0 0 5 lm0
    simpa using h

/-! ## Lemmas: ghost put-trace extension and board restoration -/

/-- The search state extended its put trace only with entries of depth at
most `bound`. -/
def PlogExt (st st' : SState Pos Move) (bound : Nat) : Prop :=
  ∃ new, st'.putLog = st.putLog ++ new ∧ ∀ e ∈ new, e.2 ≤ bound

/-- The search state extended its put trace only with entries of depth
strictly below `bound`. -/
def PlogExtLt (st st' : SState Pos Move) (bound : Nat) : Prop :=
  ∃ new, st'.putLog = st.putLog ++ new ∧ ∀ e ∈ new, e.2 < bound

theorem PlogExt_of_eq {st st' : SState Pos Move} (h : st'.putLog = st.putLog)
    (bound : Nat) : PlogExt st st' bound :=
  ⟨[], by simp [h], by simp⟩

theorem PlogExtLt_of_eq {st st' : SState Pos Move} (h : st'.putLog = st.putLog)
    (bound : Nat) : PlogExtLt st st' bound :=
  ⟨[], by simp [h], by simp⟩

theorem PlogExt_trans {st₁ st₂ st₃ : SState Pos Move} {b : Nat}
    (h₁ : PlogExt st₁ st₂ b) (h₂ : PlogExt st₂ st₃ b) : PlogExt st₁ st₃ b := by
  obtain ⟨n₁, e₁, b₁⟩ := h₁
  obtain ⟨n₂, e₂, b₂⟩ := h₂
  refine ⟨n₁ ++ n₂, by rw [e₂, e₁, List.append_assoc], ?_⟩
  intro e he
  rcases List.mem_append.mp he with h | h
  exacts [b₁ e h, b₂ e h]

theorem PlogExtLt_trans {st₁ st₂ st₃ : SState Pos Move} {b : Nat}
    (h₁ : PlogExtLt st₁ st₂ b) (h₂ : PlogExtLt st₂ st₃ b) : PlogExtLt st₁ st₃ b := by
  obtain ⟨n₁, e₁, b₁⟩ := h₁
  obtain ⟨n₂, e₂, b₂⟩ := h₂
  refine ⟨n₁ ++ n₂, by rw [e₂, e₁, List.append_assoc], ?_⟩
  intro e he
  rcases List.mem_append.mp he with h | h
  exacts [b₁ e h, b₂ e h]

theorem PlogExt_mono {st st' : SState Pos Move} {b b' : Nat}
    (hb : b ≤ b') (h : PlogExt st st' b) : PlogExt st st' b' := by
  obtain ⟨n, e, hbd⟩ := h
  exact ⟨n, e, fun x hx => le_trans (hbd x hx) hb⟩

theorem PlogExtLt_of_le_lt {st st' : SState Pos Move} {b b' : Nat}
    (h : PlogExt st st' b) (hb : b < b') : PlogExtLt st st' b' := by
  obtain ⟨n, e, hbd⟩ := h
  exact ⟨n, e, fun x hx => lt_of_le_of_lt (hbd x hx) hb⟩

theorem PlogExt_of_lt {st st' : SState Pos Move} {b : Nat}
    (h : PlogExtLt st st' b) : PlogExt st st' b := by
  obtain ⟨n, e, hbd⟩ := h
  exact ⟨n, e, fun x hx => le_of_lt (hbd x hx)⟩

theorem PlogExt_ttStore (st : SState Pos Move) (z : Nat) (s : Int)
    (f d : Nat) (mv : Option Move) : PlogExt st (ttStore st z s f d mv) d :=
  ⟨[(z, d)], rfl, by simp⟩

theorem bPop_board_eq {st₂ st : SState Pos Move}
    (h : st₂.board.saved = st.board.cur :: st.board.saved) :
    (bPop st₂).board = st.board := by
  simp [bPop, h]

/-! ## Lemmas: quiescence preserves board, table, and put trace -/

theorem qLoop_ok (E : Eng Pos Move)
    (recq : Int → Int → Int → SState Pos Move → Int × SState Pos Move)
    (hq : ∀ a b d st, ((recq a b d st).2.board = st.board ∧
      (recq a b d st).2.tt = st.tt ∧ (recq a b d st).2.putLog = st.putLog))
    (standPat qdepth beta : Int) :
    ∀ (moves : List Move) (alpha : Int) (st : SState Pos Move),
      (qLoop E recq standPat qdepth beta moves alpha st).2.board = st.board ∧
      (qLoop E recq standPat qdepth beta moves alpha st).2.tt = st.tt ∧
      (qLoop E recq standPat qdepth beta moves alpha st).2.putLog = st.putLog := by
  intro moves
  induction moves with
  | nil => intro alpha st; exact ⟨rfl, rfl, rfl⟩
  | cons m rest ih =>
    intro alpha st
    simp only [qLoop]
    split
    · exact ih alpha st
    · obtain ⟨hb, ht, hp⟩ := hq (-beta) (-alpha) (qdepth - 1) (bPush E st m)
      have hpop : (bPop (recq (-beta) (-alpha) (qdepth - 1) (bPush E st m)).2).board
          = st.board := by
        apply bPop_board_eq
        rw [hb]
        rfl
      split
      · exact ⟨hpop, ht, hp⟩
      · obtain ⟨ihb, iht, ihp⟩ := ih _ (bPop (recq (-beta) (-alpha) (qdepth - 1) (bPush E st m)).2)
        refine ⟨by rw [ihb]; exact hpop, by rw [iht]; exact ht, by rw [ihp]; exact hp⟩

theorem quiescence_ok (E : Eng Pos Move) :
    ∀ (fuel : Nat) (alpha beta qdepth : Int) (st : SState Pos Move),
      (quiescence E fuel alpha beta qdepth st).2.board = st.board ∧
      (quiescence E fuel alpha beta qdepth st).2.tt = st.tt ∧
      (quiescence E fuel alpha beta qdepth st).2.putLog = st.putLog := by
  intro fuel
  induction fuel with
  | zero => intro alpha beta qdepth st; exact ⟨rfl, rfl, rfl⟩
  | succ fuel ih =>
    intro alpha beta qdepth st
    simp only [quiescence]
    split
    · exact ⟨rfl, rfl, rfl⟩
    · exact qLoop_ok E (quiescence E fuel) (fun a b d s => ih a b d s) _ _ _ _ _ _

/-! ## Lemmas: the move loops preserve the board and bound their writes -/

theorem childMaxRe_ok
    (rec : Nat → Int → Int → Bool → SState Pos Move → MMRes Move × SState Pos Move)
    (hrecB : ∀ d a b mx st, (rec d a b mx st).2.board = st.board)
    (hrecP : ∀ d a b mx st, PlogExt st (rec d a b mx st).2 d)
    (depth : Nat) (alpha beta : Int) (r1 : MMRes Move × SState Pos Move) :
    (childMaxRe rec depth alpha beta r1).2.board = r1.2.board ∧
      PlogExt r1.2 (childMaxRe rec depth alpha beta r1).2 (depth - 1) := by
  unfold childMaxRe
  split
  · split
    · exact ⟨hrecB _ _ _ _ _, hrecP _ _ _ _ _⟩
    · exact ⟨rfl, PlogExt_of_eq rfl _⟩
  · exact ⟨rfl, PlogExt_of_eq rfl _⟩

theorem childMinRe_ok
    (rec : Nat → Int → Int → Bool → SState Pos Move → MMRes Move × SState Pos Move)
    (hrecB : ∀ d a b mx st, (rec d a b mx st).2.board = st.board)
    (hrecP : ∀ d a b mx st, PlogExt st (rec d a b mx st).2 d)
    (depth : Nat) (alpha beta : Int) (r1 : MMRes Move × SState Pos Move) :
    (childMinRe rec depth alpha beta r1).2.board = r1.2.board ∧
      PlogExt r1.2 (childMinRe rec depth alpha beta r1).2 (depth - 1) := by
  unfold childMinRe
  split
  · split
    · exact ⟨hrecB _ _ _ _ _, hrecP _ _ _ _ _⟩
    · exact ⟨rfl, PlogExt_of_eq rfl _⟩
  · exact ⟨rfl, PlogExt_of_eq rfl _⟩

theorem childMax_ok (E : Eng Pos Move)
    (rec : Nat → Int → Int → Bool → SState Pos Move → MMRes Move × SState Pos Move)
    (hrecB : ∀ d a b mx st, (rec d a b mx st).2.board = st.board)
    (hrecP : ∀ d a b mx st, PlogExt st (rec d a b mx st).2 d)
    (depth : Nat) (alpha beta : Int) (i : Nat) (m : Move) (st : SState Pos Move) :
    (childMax E rec depth alpha beta i m st).2.board = st.board ∧
      PlogExt st (childMax E rec depth alpha beta i m st).2 (depth - 1) := by
  unfold childMax
  split
  · obtain ⟨hb1, hp1⟩ := childMaxRe_ok rec hrecB hrecP depth alpha beta
      (rec (depth - 2) alpha beta false st)
    exact ⟨by rw [hb1, hrecB],
      PlogExt_trans (PlogExt_mono (by omega) (hrecP _ _ _ _ _)) hp1⟩
  · exact ⟨hrecB _ _ _ _ _, hrecP _ _ _ _ _⟩

theorem childMin_ok (E : Eng Pos Move)
    (rec : Nat → Int → Int → Bool → SState Pos Move → MMRes Move × SState Pos Move)
    (hrecB : ∀ d a b mx st, (rec d a b mx st).2.board = st.board)
    (hrecP : ∀ d a b mx st, PlogExt st (rec d a b mx st).2 d)
    (depth : Nat) (alpha beta : Int) (i : Nat) (m : Move) (st : SState Pos Move) :
    (childMin E rec depth alpha beta i m st).2.board = st.board ∧
      PlogExt st (childMin E rec depth alpha beta i m st).2 (depth - 1) := by
  unfold childMin
  split
  · obtain ⟨hb1, hp1⟩ := childMinRe_ok rec hrecB hrecP depth alpha beta
      (rec (depth - 2) (-beta) (-alpha) true st)
    exact ⟨by rw [hb1, hrecB],
      PlogExt_trans (PlogExt_mono (by omega) (hrecP _ _ _ _ _)) hp1⟩
  · exact ⟨hrecB _ _ _ _ _, hrecP _ _ _ _ _⟩

theorem searchMax_ok (E : Eng Pos Move)
    (rec : Nat → Int → Int → Bool → SState Pos Move → MMRes Move × SState Pos Move)
    (hrecB : ∀ d a b mx st, (rec d a b mx st).2.board = st.board)
    (hrecP : ∀ d a b mx st, PlogExt st (rec d a b mx st).2 d)
    (depth zkey : Nat) (hd : 1 ≤ depth) (origAlpha beta : Int) :
    ∀ (moves : List Move) (i : Nat) (bs : Int) (bm : Option Move) (alpha : Int)
      (st : SState Pos Move),
      (searchMax E rec depth zkey origAlpha beta moves i bs bm alpha st).2.board = st.board ∧
      ((searchMax E rec depth zkey origAlpha beta moves i bs bm alpha st).1.1 = none →
        (searchMax E rec depth zkey origAlpha beta moves i bs bm alpha st).1.2 = none) ∧
      PlogExt st (searchMax E rec depth zkey origAlpha beta moves i bs bm alpha st).2 depth ∧
      ((searchMax E rec depth zkey origAlpha beta moves i bs bm alpha st).1.1 = none →
        PlogExtLt st (searchMax E rec depth zkey origAlpha beta moves i bs bm alpha st).2 depth) := by
  intro moves
  induction moves with
  | nil =>
    intro i bs bm alpha st
    simp only [searchMax]
    refine ⟨rfl, ?_, PlogExt_ttStore st zkey bs _ depth bm, ?_⟩ <;>
      (intro h; exact absurd h (by simp))
  | cons m rest ih =>
    intro i bs bm alpha st
    simp only [searchMax]
    obtain ⟨hcb, hcp⟩ := childMax_ok E rec hrecB hrecP depth alpha beta i m (bPush E st m)
    have hpop : (bPop (childMax E rec depth alpha beta i m (bPush E st m)).2).board
        = st.board := by
      apply bPop_board_eq
      rw [hcb]
      rfl
    have hplog1 : PlogExt st
        (bPop (childMax E rec depth alpha beta i m (bPush E st m)).2) (depth - 1) := by
      obtain ⟨n, e, hb⟩ := hcp
      exact ⟨n, e, hb⟩
    split
    · -- timeout from the child: ((none, none), bPop r.2)
      exact ⟨hpop, fun _ => rfl, PlogExt_mono (by omega) hplog1,
        fun _ => PlogExtLt_of_le_lt hplog1 (by omega)⟩
    · -- scored child
      rename_i score heq
      generalize (if score > bs then score else bs) = bs'
      generalize (if score > bs then some m else bm) = bm'
      split
      · -- beta cutoff: killer/history update then the store
        refine ⟨?_, fun h => absurd h (by simp), ?_, fun h => absurd h (by simp)⟩
        · show (ttStore _ _ _ _ _ _).board = st.board
          split <;> exact hpop
        · refine PlogExt_trans ?_ (PlogExt_ttStore _ zkey _ _ depth _)
          split <;> exact PlogExt_mono (by omega) hplog1
      · -- continue the loop
        rcases ih (i + 1) bs' bm' (max alpha bs')
          (bPop (childMax E rec depth alpha beta i m (bPush E st m)).2)
          with ⟨ihB, ihN, ihP, ihL⟩
        exact ⟨by rw [ihB]; exact hpop, ihN,
          PlogExt_trans (PlogExt_mono (by omega) hplog1) ihP,
          fun h => PlogExtLt_trans (PlogExtLt_of_le_lt hplog1 (by omega)) (ihL h)⟩

theorem searchMin_ok (E : Eng Pos Move)
    (rec : Nat → Int → Int → Bool → SState Pos Move → MMRes Move × SState Pos Move)
    (hrecB : ∀ d a b mx st, (rec d a b mx st).2.board = st.board)
    (hrecP : ∀ d a b mx st, PlogExt st (rec d a b mx st).2 d)
    (depth zkey : Nat) (hd : 1 ≤ depth) (origAlpha alpha : Int) :
    ∀ (moves : List Move) (i : Nat) (bs : Int) (bm : Option Move) (beta : Int)
      (st : SState Pos Move),
      (searchMin E rec depth zkey origAlpha alpha moves i bs bm beta st).2.board = st.board ∧
      ((searchMin E rec depth zkey origAlpha alpha moves i bs bm beta st).1.1 = none →
        (searchMin E rec depth zkey origAlpha alpha moves i bs bm beta st).1.2 = none) ∧
      PlogExt st (searchMin E rec depth zkey origAlpha alpha moves i bs bm beta st).2 depth ∧
      ((searchMin E rec depth zkey origAlpha alpha moves i bs bm beta st).1.1 = none →
        PlogExtLt st (searchMin E rec depth zkey origAlpha alpha moves i bs bm beta st).2 depth) := by
  intro moves
  induction moves with
  | nil =>
    intro i bs bm beta st
    simp only [searchMin]
    refine ⟨rfl, ?_, PlogExt_ttStore st zkey bs _ depth bm, ?_⟩ <;>
      (intro h; exact absurd h (by simp))
  | cons m rest ih =>
    intro i bs bm beta st
    simp only [searchMin]
    obtain ⟨hcb, hcp⟩ := childMin_ok E rec hrecB hrecP depth alpha beta i m (bPush E st m)
    have hpop : (bPop (childMin E rec depth alpha beta i m (bPush E st m)).2).board
        = st.board := by
      apply bPop_board_eq
      rw [hcb]
      rfl
    have hplog1 : PlogExt st
        (bPop (childMin E rec depth alpha beta i m (bPush E st m)).2) (depth - 1) := by
      obtain ⟨n, e, hb⟩ := hcp
      exact ⟨n, e, hb⟩
    split
    · exact ⟨hpop, fun _ => rfl, PlogExt_mono (by omega) hplog1,
        fun _ => PlogExtLt_of_le_lt hplog1 (by omega)⟩
    · rename_i score heq
      generalize (if score < bs then score else bs) = bs'
      generalize (if score < bs then some m else bm) = bm'
      split
      · refine ⟨?_, fun h => absurd h (by simp), ?_, fun h => absurd h (by simp)⟩
        · show (ttStore _ _ _ _ _ _).board = st.board
          split <;> exact hpop
        · refine PlogExt_trans ?_ (PlogExt_ttStore _ zkey _ _ depth _)
          split <;> exact PlogExt_mono (by omega) hplog1
      · rcases ih (i + 1) bs' bm' (min beta bs')
          (bPop (childMin E rec depth alpha beta i m (bPush E st m)).2)
          with ⟨ihB, ihN, ihP, ihL⟩
        exact ⟨by rw [ihB]; exact hpop, ihN,
          PlogExt_trans (PlogExt_mono (by omega) hplog1) ihP,
          fun h => PlogExtLt_trans (PlogExtLt_of_le_lt hplog1 (by omega)) (ihL h)⟩

theorem mmMoves_ok (E : Eng Pos Move)
    (rec : Nat → Int → Int → Bool → SState Pos Move → MMRes Move × SState Pos Move)
    (hrecB : ∀ d a b mx st, (rec d a b mx st).2.board = st.board)
    (hrecP : ∀ d a b mx st, PlogExt st (rec d a b mx st).2 d)
    (depth : Nat) (hd : 1 ≤ depth) (alpha beta : Int) (maximizing : Bool)
    (zkey : Nat) (ttMove : Option Move) (st : SState Pos Move) :
    (mmMoves E rec depth alpha beta maximizing zkey ttMove st).2.board = st.board ∧
    ((mmMoves E rec depth alpha beta maximizing zkey ttMove st).1.1 = none →
      (mmMoves E rec depth alpha beta maximizing zkey ttMove st).1.2 = none) ∧
    PlogExt st (mmMoves E rec depth alpha beta maximizing zkey ttMove st).2 depth ∧
    ((mmMoves E rec depth alpha beta maximizing zkey ttMove st).1.1 = none →
      PlogExtLt st (mmMoves E rec depth alpha beta maximizing zkey ttMove st).2 depth) := by
  simp only [mmMoves]
  split
  · exact ⟨rfl, fun _ => rfl, PlogExt_of_eq rfl _, fun _ => PlogExtLt_of_eq rfl _⟩
  · split
    · exact searchMax_ok E rec hrecB hrecP depth zkey hd alpha beta _ 0 _ none alpha st
    · exact searchMin_ok E rec hrecB hrecP depth zkey hd alpha alpha _ 0 _ none beta st


theorem mmNullAfter_ok (E : Eng Pos Move)
    (rec : Nat → Int → Int → Bool → SState Pos Move → MMRes Move × SState Pos Move)
    (hrecB : ∀ d a b mx st, (rec d a b mx st).2.board = st.board)
    (hrecP : ∀ d a b mx st, PlogExt st (rec d a b mx st).2 d)
    (depth : Nat) (hd : 1 ≤ depth) (alpha beta : Int) (maximizing : Bool)
    (zkey : Nat) (ttMove : Option Move) (rn : MMRes Move × SState Pos Move)
    (st : SState Pos Move)
    (hb : (bPop rn.2).board = st.board)
    (hp : PlogExt st (bPop rn.2) (depth - 1)) :
    (mmNullAfter E rec depth alpha beta maximizing zkey ttMove rn).2.board = st.board ∧
    ((mmNullAfter E rec depth alpha beta maximizing zkey ttMove rn).1.1 = none →
      (mmNullAfter E rec depth alpha beta maximizing zkey ttMove rn).1.2 = none) ∧
    PlogExt st (mmNullAfter E rec depth alpha beta maximizing zkey ttMove rn).2 depth ∧
    ((mmNullAfter E rec depth alpha beta maximizing zkey ttMove rn).1.1 = none →
      PlogExtLt st (mmNullAfter E rec depth alpha beta maximizing zkey ttMove rn).2 depth) := by
  have hcont : (mmMoves E rec depth alpha beta maximizing zkey ttMove (bPop rn.2)).2.board
        = st.board ∧
      ((mmMoves E rec depth alpha beta maximizing zkey ttMove (bPop rn.2)).1.1 = none →
        (mmMoves E rec depth alpha beta maximizing zkey ttMove (bPop rn.2)).1.2 = none) ∧
      PlogExt st (mmMoves E rec depth alpha beta maximizing zkey ttMove (bPop rn.2)).2 depth ∧
      ((mmMoves E rec depth alpha beta maximizing zkey ttMove (bPop rn.2)).1.1 = none →
        PlogExtLt st (mmMoves E rec depth alpha beta maximizing zkey ttMove (bPop rn.2)).2 depth) := by
    obtain ⟨mb, mn, mp, ml⟩ := mmMoves_ok E rec hrecB hrecP depth hd alpha beta maximizing
      zkey ttMove (bPop rn.2)
    exact ⟨by rw [mb]; exact hb, mn,
      PlogExt_trans (PlogExt_mono (by omega) hp) mp,
      fun h => PlogExtLt_trans (PlogExtLt_of_le_lt hp (by omega)) (ml h)⟩
  unfold mmNullAfter
  split
  · split
    · exact ⟨hb, fun h => absurd h (by simp), PlogExt_mono (by omega) hp,
        fun h => absurd h (by simp)⟩
    · exact hcont
  · exact hcont

theorem mmMain_ok (E : Eng Pos Move)
    (rec : Nat → Int → Int → Bool → SState Pos Move → MMRes Move × SState Pos Move)
    (hrecB : ∀ d a b mx st, (rec d a b mx st).2.board = st.board)
    (hrecP : ∀ d a b mx st, PlogExt st (rec d a b mx st).2 d)
    (depth : Nat) (hd : 1 ≤ depth) (alpha beta : Int) (maximizing : Bool)
    (zkey : Nat) (ttMove : Option Move) (st : SState Pos Move) :
    (mmMain E rec depth alpha beta maximizing zkey ttMove st).2.board = st.board ∧
    ((mmMain E rec depth alpha beta maximizing zkey ttMove st).1.1 = none →
      (mmMain E rec depth alpha beta maximizing zkey ttMove st).1.2 = none) ∧
    PlogExt st (mmMain E rec depth alpha beta maximizing zkey ttMove st).2 depth ∧
    ((mmMain E rec depth alpha beta maximizing zkey ttMove st).1.1 = none →
      PlogExtLt st (mmMain E rec depth alpha beta maximizing zkey ttMove st).2 depth) := by
  unfold mmMain
  split
  · apply mmNullAfter_ok E rec hrecB hrecP depth hd alpha beta maximizing zkey ttMove _ st
    · apply bPop_board_eq
      rw [hrecB]
      rfl
    · obtain ⟨n, e, hbnd⟩ := hrecP (depth - 3) (-beta) (-beta + 1) (!maximizing)
        (bPushNull E st)
      exact PlogExt_mono (by omega) ⟨n, e, hbnd⟩
  · exact mmMoves_ok E rec hrecB hrecP depth hd alpha beta maximizing zkey ttMove st

theorem mmAfterProbe_ok (E : Eng Pos Move)
    (rec : Nat → Int → Int → Bool → SState Pos Move → MMRes Move × SState Pos Move)
    (hrecB : ∀ d a b mx st, (rec d a b mx st).2.board = st.board)
    (hrecP : ∀ d a b mx st, PlogExt st (rec d a b mx st).2 d)
    (depth : Nat) (maximizing : Bool) (zkey : Nat)
    (pr : Sum (Int × Option Move) (Int × Int × Option Move)) (st : SState Pos Move) :
    (mmAfterProbe E rec depth maximizing zkey pr st).2.board = st.board ∧
    ((mmAfterProbe E rec depth maximizing zkey pr st).1.1 = none →
      (mmAfterProbe E rec depth maximizing zkey pr st).1.2 = none) ∧
    PlogExt st (mmAfterProbe E rec depth maximizing zkey pr st).2 depth ∧
    ((mmAfterProbe E rec depth maximizing zkey pr st).1.1 = none →
      PlogExtLt st (mmAfterProbe E rec depth maximizing zkey pr st).2 depth) := by
  unfold mmAfterProbe
  split
  · exact ⟨rfl, fun h => absurd h (by simp), PlogExt_of_eq rfl _,
      fun _ => PlogExtLt_of_eq rfl _⟩
  · rename_i c
    split
    · exact ⟨(quiescence_ok E E.qfuel _ _ _ _).1, fun _ => rfl,
        PlogExt_of_eq (quiescence_ok E E.qfuel _ _ _ _).2.2 _,
        fun _ => PlogExtLt_of_eq (quiescence_ok E E.qfuel _ _ _ _).2.2 _⟩
    · rename_i hleaf
      have hd : 1 ≤ depth := by
        rcases Nat.eq_zero_or_pos depth with h0 | h1
        · exact absurd (Or.inl h0) hleaf
        · exact h1
      exact mmMain_ok E rec hrecB hrecP depth hd c.1 c.2.1 maximizing zkey c.2.2 st

theorem mmBody_ok (E : Eng Pos Move)
    (rec : Nat → Int → Int → Bool → SState Pos Move → MMRes Move × SState Pos Move)
    (hrecB : ∀ d a b mx st, (rec d a b mx st).2.board = st.board)
    (hrecP : ∀ d a b mx st, PlogExt st (rec d a b mx st).2 d)
    (depth : Nat) (alpha beta : Int) (maximizing : Bool) (st : SState Pos Move) :
    (mmBody E rec depth alpha beta maximizing st).2.board = st.board ∧
    ((mmBody E rec depth alpha beta maximizing st).1.1 = none →
      (mmBody E rec depth alpha beta maximizing st).1.2 = none) ∧
    PlogExt st (mmBody E rec depth alpha beta maximizing st).2 depth ∧
    ((mmBody E rec depth alpha beta maximizing st).1.1 = none →
      PlogExtLt st (mmBody E rec depth alpha beta maximizing st).2 depth) := by
  unfold mmBody
  split
  · exact ⟨rfl, fun _ => rfl, PlogExt_of_eq rfl _, fun _ => PlogExtLt_of_eq rfl _⟩
  · split
    · split
      · exact ⟨rfl, fun _ => rfl, PlogExt_of_eq rfl _, fun _ => PlogExtLt_of_eq rfl _⟩
      · exact ⟨rfl, fun _ => rfl, PlogExt_of_eq rfl _, fun _ => PlogExtLt_of_eq rfl _⟩
    · exact mmAfterProbe_ok E rec hrecB hrecP depth maximizing _ _ _

theorem minimax_ok (E : Eng Pos Move) :
    ∀ (fuel depth : Nat) (alpha beta : Int) (maximizing : Bool) (st : SState Pos Move),
      (minimax E fuel depth alpha beta maximizing st).2.board = st.board ∧
      ((minimax E fuel depth alpha beta maximizing st).1.1 = none →
        (minimax E fuel depth alpha beta maximizing st).1.2 = none) ∧
      PlogExt st (minimax E fuel depth alpha beta maximizing st).2 depth ∧
      ((minimax E fuel depth alpha beta maximizing st).1.1 = none →
        PlogExtLt st (minimax E fuel depth alpha beta maximizing st).2 depth) := by
  intro fuel
  induction fuel with
  | zero =>
    intro depth alpha beta maximizing st
    exact ⟨rfl, fun _ => rfl, PlogExt_of_eq rfl _, fun _ => PlogExtLt_of_eq rfl _⟩
  | succ fuel ih =>
    intro depth alpha beta maximizing st
    exact mmBody_ok E (minimax E fuel)
      (fun d a b mx s => (ih d a b mx s).1)
      (fun d a b mx s => (ih d a b mx s).2.2.1)
      depth alpha beta maximizing st

/-- C2: minimax propagates the timeout sentinel (None, None) without a
score — whenever the returned score is the sentinel the move is too; every
push on the board is matched by a pop on every exit path, so the board
object (stack included) is exactly the entry board when the search
returns; and the ghost trace of transposition writes shows every write
performed during the call has depth at most the call depth, while an
aborted call stores nothing at its own depth — all writes under it belong
to completed strictly deeper subsearches. When the periodic time check
fires at entry, the call returns the sentinel at once with no state change
beyond the node counter. -/
theorem claim_C2 {Pos Move : Type} [DecidableEq Move] (E : Eng Pos Move)
    (fuel depth : Nat) (alpha beta : Int) (maximizing : Bool) (st : SState Pos Move) :
    ((minimax E fuel depth alpha beta maximizing st).2.board = st.board)
    ∧ ((minimax E fuel depth alpha beta maximizing st).1.1 = none →
        (minimax E fuel depth alpha beta maximizing st).1.2 = none)
    ∧ PlogExt st (minimax E fuel depth alpha beta maximizing st).2 depth
    ∧ ((minimax E fuel depth alpha beta maximizing st).1.1 = none →
        PlogExtLt st (minimax E fuel depth alpha beta maximizing st).2 depth)
    ∧ (((st.nodes + 1) % 2048 = 0 ∧ E.timeUp (st.nodes + 1) = true) →
        minimax E (fuel + 1) depth alpha beta maximizing st
          = ((none, none), { st with nodes := st.nodes + 1 })) := by
  obtain ⟨h1, h2, h3, h4⟩ := minimax_ok E fuel depth alpha beta maximizing st
  refine ⟨h1, h2, h3, h4, ?_⟩
  intro hcond
  simp only [minimax, mmBody]
  rw [if_pos hcond]

/-- Witness for C2: with the clock expired and the node counter one short
of the periodic check, the search aborts immediately with the unscored
sentinel and an unchanged board. -/
theorem claim_C2_witness :
    minimax toyTime 2 1 (-(10 ^ 9 : Int)) ((10 ^ 9 : Int)) true stT
        = ((none, none), { stT with nodes := 2047 + 1 })
      ∧ (minimax toyTime 2 1 (-(10 ^ 9 : Int)) ((10 ^ 9 : Int)) true stT).2.board
        = stT.board := by
  refine ⟨?_, (claim_C2 toyTime 2 1 (-(10 ^ 9 : Int)) ((10 ^ 9 : Int)) true stT).1⟩
  exact (claim_C2 toyTime 1 1 (-(10 ^ 9 : Int)) ((10 ^ 9 : Int)) true stT).2.2.2.2
    (by decide)

/-! ## Lemmas: lookups through LRU operations -/

theorem assocFind_append_of_some {K V : Type} [DecidableEq K]
    {l₁ : List (K × V)} {k : K} {v : V} (l₂ : List (K × V))
    (h : assocFind l₁ k = some v) : assocFind (l₁ ++ l₂) k = some v := by
  induction l₁ with
  | nil => simp [assocFind] at h
  | cons kv rest ih =>
    simp only [assocFind, List.cons_append] at h ⊢
    split at h
    · rename_i hk
      rw [if_pos hk]
      exact h
    · rename_i hk
      rw [if_neg hk]
      exact ih h

theorem assocFind_append_of_none {K V : Type} [DecidableEq K]
    {l₁ : List (K × V)} {k : K} (l₂ : List (K × V))
    (h : assocFind l₁ k = none) : assocFind (l₁ ++ l₂) k = assocFind l₂ k := by
  induction l₁ with
  | nil => simp
  | cons kv rest ih =>
    simp only [assocFind, List.cons_append] at h ⊢
    split at h
    · simp at h
    · rename_i hk
      rw [if_neg hk]
      exact ih h

theorem assocFind_removeKey_self {K V : Type} [DecidableEq K]
    (l : List (K × V)) (k : K) : assocFind (removeKey l k) k = none := by
  induction l with
  | nil => rfl
  | cons kv rest ih =>
    simp only [removeKey]
    split
    · exact ih
    · rename_i hk
      simp only [assocFind, if_neg hk]
      exact ih

theorem assocFind_removeKey_ne {K V : Type} [DecidableEq K]
    (l : List (K × V)) {k k' : K} (h : k' ≠ k) :
    assocFind (removeKey l k) k' = assocFind l k' := by
  induction l with
  | nil => rfl
  | cons kv rest ih =>
    simp only [removeKey, assocFind]
    split
    · rename_i hk
      rw [ih, if_neg (fun e => h (by rw [← e, hk]))]
    · simp only [assocFind]
      split
      · rfl
      · exact ih

theorem not_mem_of_assocFind_eq_none {K V : Type} [DecidableEq K]
    {l : List (K × V)} {k : K} (h : assocFind l k = none) :
    k ∉ l.map Prod.fst := by
  induction l with
  | nil => simp
  | cons kv rest ih =>
    simp only [assocFind] at h
    split at h
    · simp at h
    · rename_i hk
      simp only [List.map_cons, List.mem_cons, not_or]
      exact ⟨fun e => hk e.symm, ih h⟩

theorem LRU.get_fst {K V : Type} [DecidableEq K] (t : LRU K V) (k : K) :
    (t.get k).1 = assocFind t.data k := by
  unfold LRU.get
  cases assocFind t.data k <;> rfl

theorem assocFind_singleton_self {K V : Type} [DecidableEq K] (k : K) (v : V) :
    assocFind [(k, v)] k = some v := by
  simp [assocFind]

theorem assocFind_singleton_ne {K V : Type} [DecidableEq K] {k k' : K} (v : V)
    (h : k' ≠ k) : assocFind [(k, v)] k' = none := by
  simp only [assocFind, if_neg (show ¬ k = k' from fun e => h (Eq.symm e))]

theorem LRU.get_find {K V : Type} [DecidableEq K] (t : LRU K V) (k k' : K) :
    assocFind ((t.get k).2).data k' = assocFind t.data k' := by
  unfold LRU.get
  split
  · rename_i v h
    show assocFind (removeKey t.data k ++ [(k, v)]) k' = assocFind t.data k'
    by_cases hk : k' = k
    · subst hk
      rw [assocFind_append_of_none _ (assocFind_removeKey_self t.data k'), h,
        assocFind_singleton_self]
    · cases h' : assocFind t.data k' with
      | none =>
        rw [assocFind_append_of_none _ (by rw [assocFind_removeKey_ne t.data hk]; exact h')]
        exact assocFind_singleton_ne v hk
      | some w =>
        exact assocFind_append_of_some _ (by rw [assocFind_removeKey_ne t.data hk]; exact h')
  · rfl

theorem LRU.put_find_self {K V : Type} [DecidableEq K] (t : LRU K V) (k : K) (v : V) :
    assocFind ((t.put k v).data) k = some v := by
  unfold LRU.put
  split
  · rename_i w h
    show assocFind (removeKey t.data k ++ [(k, v)]) k = some v
    rw [assocFind_append_of_none _ (assocFind_removeKey_self t.data k),
      assocFind_singleton_self]
  · rename_i h
    have hnm := not_mem_of_assocFind_eq_none h
    split
    · have htail : assocFind t.data.tail k = none := by
        apply assocFind_eq_none_of_not_mem
        intro hmem
        rcases List.mem_map.mp hmem with ⟨x, hx, he⟩
        exact hnm (List.mem_map.mpr ⟨x, List.mem_of_mem_tail hx, he⟩)
      show assocFind (t.data.tail ++ [(k, v)]) k = some v
      rw [assocFind_append_of_none _ htail, assocFind_singleton_self]
    · show assocFind (t.data ++ [(k, v)]) k = some v
      rw [assocFind_append_of_none _ h, assocFind_singleton_self]

theorem LRU.put_find_ne {K V : Type} [DecidableEq K] (t : LRU K V) {k k' : K} (v : V)
    (hk : k' ≠ k)
    (hroom : t.data.length < t.maxSize ∨ (assocFind t.data k).isSome) :
    assocFind ((t.put k v).data) k' = assocFind t.data k' := by
  unfold LRU.put
  split
  · rename_i w h
    show assocFind (removeKey t.data k ++ [(k, v)]) k' = assocFind t.data k'
    cases h' : assocFind t.data k' with
    | none =>
      rw [assocFind_append_of_none _ (by rw [assocFind_removeKey_ne t.data hk]; exact h')]
      exact assocFind_singleton_ne v hk
    | some u =>
      exact assocFind_append_of_some _ (by rw [assocFind_removeKey_ne t.data hk]; exact h')
  · rename_i h
    have hroom' : t.data.length < t.maxSize := by
      rcases hroom with hr | hr
      · exact hr
      · rw [h] at hr; simp at hr
    rw [if_neg (by omega : ¬ t.maxSize ≤ t.data.length)]
    show assocFind (t.data ++ [(k, v)]) k' = assocFind t.data k'
    cases h' : assocFind t.data k' with
    | none =>
      rw [assocFind_append_of_none _ h']
      exact assocFind_singleton_ne v hk
    | some u =>
      exact assocFind_append_of_some _ h'

theorem LRU.put_length_succ {K V : Type} [DecidableEq K] (t : LRU K V) (k : K) (v : V) :
    (t.put k v).data.length ≤ t.data.length + 1 := by
  unfold LRU.put
  split
  · show (removeKey t.data k ++ [(k, v)]).length ≤ t.data.length + 1
    have := removeKey_length_le t.data k
    simp only [List.length_append, List.length_singleton]
    omega
  · show ((if t.maxSize ≤ t.data.length then t.data.tail else t.data) ++ [(k, v)]).length
      ≤ t.data.length + 1
    split
    · simp only [List.length_append, List.length_singleton, List.length_tail]
      omega
    · simp only [List.length_append, List.length_singleton]
      omega

/-! ## Lemmas: decimal round trip and store reload -/

theorem decDigits_roundtrip : ∀ (fuel n : Nat), n ≤ fuel →
    decToNat (decDigits fuel n) = n := by
  intro fuel
  induction fuel with
  | zero =>
    intro n h
    simp only [decDigits, decToNat]
    omega
  | succ fuel ih =>
    intro n h
    cases n with
    | zero => simp [decDigits, decToNat]
    | succ m =>
      simp only [decDigits, decToNat]
      rw [ih ((m + 1) / 10) (by omega)]
      omega

theorem natToDec_roundtrip (n : Nat) : decToNat (natToDec n) = n :=
  decDigits_roundtrip n n le_rfl

theorem dictSet_foldl_fresh {K V : Type} [DecidableEq K] :
    ∀ (l : List (K × V)) (acc : List (K × V)),
      (((acc ++ l).map Prod.fst).Nodup) →
      l.foldl (fun a kv => dictSet a kv.1 kv.2) acc = acc ++ l := by
  intro l
  induction l with
  | nil => intro acc _; simp
  | cons kv rest ih =>
    intro acc hnd
    have hmem : kv.1 ∉ acc.map Prod.fst := by
      intro hm
      rw [List.map_append] at hnd
      rcases List.nodup_append.mp hnd with ⟨_, _, hdisj⟩
      exact hdisj hm (by simp)
    have hset : dictSet acc kv.1 kv.2 = acc ++ [kv] := by
      unfold dictSet
      rw [assocFind_eq_none_of_not_mem hmem]
    rw [List.foldl_cons, hset, ih (acc ++ [kv]) (by rw [List.append_assoc]; simpa using hnd),
      List.append_assoc]
    simp

theorem bpLoop_find_ne (shaped : ℚ) (k : Nat) :
    ∀ (moves : List (Nat × String × ℚ)) (i : Nat) (pv : LRU Nat ℚ),
      (∀ e ∈ moves, e.1 ≠ k) →
      pv.data.length + moves.length ≤ pv.maxSize →
      assocFind (bpLoop shaped i moves pv).data k = assocFind pv.data k := by
  intro moves
  induction moves with
  | nil => intro i pv _ _; rfl
  | cons e rest ih =>
    intro i pv hk hcap
    simp only [bpLoop]
    have hglen : ((pv.get e.1).2).data.length ≤ pv.data.length :=
      LRU.get_length_le pv e.1
    have hgmax : ((pv.get e.1).2).maxSize = pv.maxSize := LRU.get_maxSize pv e.1
    have hroom : ((pv.get e.1).2).data.length < ((pv.get e.1).2).maxSize := by
      rw [hgmax]
      simp only [List.length_cons] at hcap
      omega
    rw [ih (i + 1) _ (fun x hx => hk x (List.mem_cons_of_mem e hx)) ?_]
    · rw [LRU.put_find_ne _ _ (Ne.symm (hk e (List.mem_cons_self e rest))) (Or.inl hroom),
        LRU.get_find]
    · rw [LRU.put_maxSize, hgmax]
      have := LRU.put_length_succ ((pv.get e.1).2) e.1
        (((pv.get e.1).1.getD e.2.2) + (3 / 20 : ℚ)
          * (shaped * (23 / 25 : ℚ) ^ i - ((pv.get e.1).1.getD e.2.2)))
      simp only [List.length_cons] at hcap
      omega

theorem load_fold_eq : ∀ (l : List (Nat × ℚ)) (acc : List (Nat × ℚ)),
    (((acc ++ l).map Prod.fst).Nodup) →
    (l.map (fun kv => (natToDec kv.1, kv.2))).foldl
      (fun a kv => dictSet a (decToNat kv.1) kv.2) acc = acc ++ l := by
  intro l
  induction l with
  | nil => intro acc _; simp
  | cons kv rest ih =>
    intro acc hnd
    have hmem : kv.1 ∉ acc.map Prod.fst := by
      intro hm
      rw [List.map_append] at hnd
      rcases List.nodup_append.mp hnd with ⟨_, _, hdisj⟩
      exact hdisj hm (by simp)
    have hset : dictSet acc kv.1 kv.2 = acc ++ [kv] := by
      unfold dictSet
      rw [assocFind_eq_none_of_not_mem hmem]
    simp only [List.map_cons, List.foldl_cons, natToDec_roundtrip]
    rw [hset, ih (acc ++ [kv]) (by rw [List.append_assoc]; simpa using hnd),
      List.append_assoc]
    simp

/-- C9: saving the learning store and loading it back reproduces the
games_played counter and the position-value map exactly. The keys round
trip through their decimal numerals, and the load-time truncation to the
last MAX_POSITIONS entries is the identity because the bounded store never
exceeds that size (the stated hypotheses, which hold of every reachable
store). -/
theorem claim_C9 (lm : LMState)
    (hlen : lm.positionValues.data.length ≤ MAX_POSITIONS)
    (hnd : (lm.positionValues.data.map Prod.fst).Nodup) :
    (lmLoad (lmSave lm)).gamesPlayed = lm.gamesPlayed ∧
    (lmLoad (lmSave lm)).positionValues.data = lm.positionValues.data := by
  refine ⟨rfl, ?_⟩
  simp only [lmLoad, lmSave, List.length_map]
  rw [show lm.positionValues.data.length - MAX_POSITIONS = 0 from by omega,
    List.drop_zero]
  exact load_fold_eq lm.positionValues.data [] (by simpa using hnd)

/-- Witness for C9 on a one-entry store. -/
theorem claim_C9_witness :
    (lmLoad (lmSave lmC8)).gamesPlayed = lmC8.gamesPlayed ∧
    (lmLoad (lmSave lmC8)).positionValues.data = lmC8.positionValues.data :=
  claim_C9 lmC8 (by decide) (by decide)

/-- The value that end_game stores for the key of the last recorded move
under a reward-1000 result: the previous value (seeded from the recorded
intrinsic score when unseen) moved by LR toward the shaped target, with
the later backpropagation steps (all other keys, no eviction) leaving it
untouched. -/
theorem lmEndGame_find_last {Pos Move : Type} (E : Eng Pos Move)
    (res : String) (col : Bool) (fb : Pos) (lm : LMState)
    (ms : List (Nat × String × ℚ)) (k : Nat) (s : String) (base : ℚ)
    (hres : (res = "1-0" ∧ col = true) ∨ (res = "0-1" ∧ col = false))
    (hmoves : lm.currentGameMoves = ms ++ [(k, s, base)])
    (hk : ∀ e ∈ ms, e.1 ≠ k)
    (hcap : lm.positionValues.data.length + lm.currentGameMoves.length
      ≤ lm.positionValues.maxSize) :
    assocFind (lmEndGame E res fb col lm).positionValues.data k
      = some (((assocFind lm.positionValues.data k).getD base)
          + (3 / 20) * ((1000 + materialEvalQ E fb / 10)
            - ((assocFind lm.positionValues.data k).getD base))) := by
  have hshape : (lmEndGame E res fb col lm).positionValues
      = bpLoop (1000 + materialEvalQ E fb * (1 / 10)) 0
          lm.currentGameMoves.reverse lm.positionValues := by
    rcases hres with ⟨hr, hc⟩ | ⟨hr, hc⟩ <;> subst hr <;> subst hc <;>
      simp [lmEndGame, backpropagate]
  rw [hshape, hmoves, List.reverse_append]
  simp only [List.reverse_singleton, List.singleton_append, bpLoop, pow_zero,
    mul_one, List.append_eq, List.nil_append, Nat.zero_add, zero_add]
  have hkrev : ∀ e ∈ ms.reverse, e.1 ≠ k := fun e he => hk e (List.mem_reverse.mp he)
  have hcap2 : ((lm.positionValues.get k).2.put k
        ((lm.positionValues.get k).1.getD base
          + 3 / 20 * (1000 + materialEvalQ E fb * (1 / 10)
            - (lm.positionValues.get k).1.getD base))).data.length
        + ms.reverse.length
      ≤ ((lm.positionValues.get k).2.put k
        ((lm.positionValues.get k).1.getD base
          + 3 / 20 * (1000 + materialEvalQ E fb * (1 / 10)
            - (lm.positionValues.get k).1.getD base))).maxSize := by
    rw [LRU.put_maxSize, LRU.get_maxSize]
    have h1 := LRU.put_length_succ ((lm.positionValues.get k).2) k
      ((lm.positionValues.get k).1.getD base
        + 3 / 20 * (1000 + materialEvalQ E fb * (1 / 10)
          - (lm.positionValues.get k).1.getD base))
    have h2 := LRU.get_length_le lm.positionValues k
    rw [hmoves] at hcap
    simp only [List.length_append, List.length_singleton, List.length_reverse] at hcap ⊢
    omega
  rw [bpLoop_find_ne _ k ms.reverse 1 _ hkrev hcap2]
  rw [LRU.put_find_self, LRU.get_fst]
  have : (1000 : ℚ) + materialEvalQ E fb * (1 / 10)
      = 1000 + materialEvalQ E fb / 10 := by ring
  rw [this]

/-- C8 (amended): end_game("1-0", color = White) — and symmetrically
end_game("0-1", color = Black) — moves the stored value for the hash of
the last recorded position from its previous value (the stored value, or
the recorded intrinsic score when unseen) strictly toward the shaped
target t = 1000 + material/10, provided that target is strictly positive,
the previous value differs from t, that hash occurs only at the last
recorded move, and the store has room for the game record (no LRU
eviction during backpropagation). -/
theorem claim_C8 {Pos Move : Type} (E : Eng Pos Move)
    (res : String) (col : Bool) (fb : Pos) (lm : LMState)
    (ms : List (Nat × String × ℚ)) (k : Nat) (s : String) (base : ℚ)
    (t old : ℚ)
    (hres : (res = "1-0" ∧ col = true) ∨ (res = "0-1" ∧ col = false))
    (hmoves : lm.currentGameMoves = ms ++ [(k, s, base)])
    (hk : ∀ e ∈ ms, e.1 ≠ k)
    (hcap : lm.positionValues.data.length + lm.currentGameMoves.length
      ≤ lm.positionValues.maxSize)
    (ht : t = 1000 + materialEvalQ E fb / 10)
    (hold : old = (assocFind lm.positionValues.data k).getD base)
    (htpos : 0 < t) (hne : old ≠ t) :
    0 < t
    ∧ assocFind (lmEndGame E res fb col lm).positionValues.data k
        = some (old + (3 / 20) * (t - old))
    ∧ old + (3 / 20) * (t - old) ≠ old
    ∧ (old < t → old < old + (3 / 20) * (t - old) ∧ old + (3 / 20) * (t - old) < t)
    ∧ (t < old → t < old + (3 / 20) * (t - old) ∧ old + (3 / 20) * (t - old) < old) := by
  have hfind := lmEndGame_find_last E res col fb lm ms k s base hres hmoves hk hcap
  rw [← hold, ← ht] at hfind
  refine ⟨htpos, hfind, ?_, ?_, ?_⟩
  · intro h
    apply hne
    have h0 : (3 / 20 : ℚ) * (t - old) = 0 := by linarith
    rcases mul_eq_zero.mp h0 with h3 | h3
    · norm_num at h3
    · linarith
  · intro h
    constructor <;> nlinarith
  · intro h
    constructor <;> nlinarith

/-- Counterexample to C8 as literally stated: when the stored value for
the last position's hash already equals the shaped target (here both are
1000, the final board having no material), end_game("1-0", White) leaves
the stored value exactly unchanged — it does not strictly move. -/
theorem claim_C8_counterexample :
    assocFind lmC8.positionValues.data 5 = some 1000
      ∧ assocFind (lmEndGame toyBase "1-0" 0 true lmC8).positionValues.data 5
          = some 1000 := by
  constructor
  · rfl
  · have h := lmEndGame_find_last toyBase "1-0" true 0 lmC8 [] 5 "e4" 0
      (Or.inl ⟨rfl, rfl⟩) rfl (by simp) (by decide)
    rw [h]
    norm_num [materialEvalQ, toyBase, lmC8, assocFind]

/-- Witness for C8: an unseen position seeded with intrinsic score 0 moves
strictly toward the target 1000 (to 150) after a 1-0 result for White. -/
theorem claim_C8_witness :
    assocFind (lmEndGame toyBase "1-0" 0 true lmW).positionValues.data 5
        = some ((0 : ℚ) + (3 / 20) * (1000 - 0))
      ∧ ((0 : ℚ) < 1000 → (0 : ℚ) < 0 + (3 / 20) * (1000 - 0)
          ∧ (0 : ℚ) + (3 / 20) * (1000 - 0) < 1000) := by
  have h := claim_C8 toyBase "1-0" true 0 lmW [] 5 "e4" 0 1000 0
    (Or.inl ⟨rfl, rfl⟩) rfl (by simp) (by decide)
    (by norm_num [materialEvalQ, toyBase]) (by simp [assocFind])
    (by norm_num) (by norm_num)
  exact ⟨h.2.1, h.2.2.2.1⟩

theorem coupSearch_omp {Pos Move : Type} [DecidableEq Move] (E : Eng Pos Move)
    (ia : IAState Pos Move) :
    (coupSearch E ia).2.openingMovesPlayed = ia.openingMovesPlayed := by
  simp only [coupSearch]
  split <;> rfl

theorem coupExplore_omp {Pos Move : Type} [DecidableEq Move] (E : Eng Pos Move)
    (p : Pos) (ia : IAState Pos Move) (lm : LMState) :
    (coupExplore E p ia lm).2.openingMovesPlayed = ia.openingMovesPlayed := by
  simp only [coupExplore]
  split
  · exact coupSearch_omp E ia
  · rfl

theorem coupAfterBook_omp {Pos Move : Type} [DecidableEq Move] (E : Eng Pos Move)
    (p : Pos) (ia : IAState Pos Move) :
    (coupAfterBook E p ia).2.openingMovesPlayed = ia.openingMovesPlayed := by
  simp only [coupAfterBook]
  split
  · split
    · exact coupExplore_omp E p ia _
    · exact coupSearch_omp E ia
  · exact coupSearch_omp E ia

/-- C7 (amended): coup reinitializes the killer table at entry — its
behavior is invariant under any replacement of the incoming killer table,
which it overwrites with the fresh empty table — but it does not reset the
history table; that table is cleared (together with the transposition
table) only by end_game, which in turn leaves the killer table untouched. -/
theorem claim_C7 {Pos Move : Type} [DecidableEq Move] (E : Eng Pos Move)
    (p : Pos) (ia : IAState Pos Move) (k : List (Option Move × Option Move))
    (res : String) (b : Option Pos) (c : Option Bool) :
    coup E p { ia with search := { ia.search with killers := k } } = coup E p ia
    ∧ (treeEndGame E res b c ia).search.history = []
    ∧ (treeEndGame E res b c ia).search.tt.data = []
    ∧ (treeEndGame E res b c ia).search.killers = ia.search.killers := by
  refine ⟨rfl, ?_, ?_, ?_⟩ <;>
    · cases h : ia.learning <;> simp [treeEndGame, LRU.clear, h]

/-- Counterexample to C7 as literally stated: a coup from the opening
position with a nonempty history table answers (here from the book) with
the history table intact — coup resets only the killer table. -/
theorem claim_C7_counterexample :
    (coup toyBook 0 iaC7).2.search.killers = freshKillers
    ∧ (coup toyBook 0 iaC7).2.search.history = [((0, 0), 7)]
    ∧ [((0, 0), 7)] ≠ ([] : List ((Nat × Nat) × Nat)) := by
  exact ⟨rfl, rfl, by decide⟩

/-- C10: during the first 12 opening moves, when the position's FEN is a
book key and one of the sampled candidates parses, coup answers from the
book directly: it returns that candidate converted to SAN, runs no search
(node counter, transposition table and learning record untouched) and
advances the opening counter; and on every book miss in the opening phase
the counter jumps to 12, disabling the book for the rest of the game. -/
theorem claim_C10 {Pos Move : Type} [DecidableEq Move] (E : Eng Pos Move)
    (p : Pos) (ia : IAState Pos Move) (cands : List String) (s : String)
    (homp : ia.openingMovesPlayed < 12)
    (hbook : bookLookup (E.fen p) = some cands)
    (hparse : firstParse E p (E.sample cands) = some s) :
    (coup E p ia).1 = .ok s
    ∧ (coup E p ia).2.search.nodes = ia.search.nodes
    ∧ (coup E p ia).2.search.tt = ia.search.tt
    ∧ (coup E p ia).2.learning = ia.learning
    ∧ (coup E p ia).2.openingMovesPlayed = ia.openingMovesPlayed + 1
    ∧ (∀ (q : Pos) (ib : IAState Pos Move), ib.openingMovesPlayed < 12 →
        getOpeningMove E q = none →
        (coup E q ib).2.openingMovesPlayed = 12) := by
  have hgo : getOpeningMove E p = some s := by
    unfold getOpeningMove
    rw [hbook]
    exact hparse
  have hcoup : coup E p ia
      = (.ok s, { ia with
          search := { ia.search with board := ⟨p, []⟩, killers := freshKillers },
          openingMovesPlayed := ia.openingMovesPlayed + 1 }) := by
    simp only [coup]
    rw [if_pos homp, hgo]
  refine ⟨by rw [hcoup], by rw [hcoup], by rw [hcoup], by rw [hcoup], by rw [hcoup], ?_⟩
  intro q ib h12 hnone
  simp only [coup]
  rw [if_pos h12, hnone, coupAfterBook_omp]

/-- Witness for C10: from the standard start position with the opening
counter at 0, coup answers with the book move immediately and advances
the counter. -/
theorem claim_C10_witness :
    (coup toyBook 0 iaC7).1 = .ok "a3"
    ∧ (coup toyBook 0 iaC7).2.openingMovesPlayed = 0 + 1 := by
  have h := claim_C10 toyBook 0 iaC7 ["e4", "d4", "c4", "Nf3", "g3", "b3"] "a3"
    (by decide) (by rfl) (by rfl)
  refine ⟨h.1, ?_⟩
  rw [h.2.2.2.2.1]
  rfl

/-! ## Lemmas: legality of returned moves (claim C1) -/

theorem mem_of_assocFind_eq_some {K V : Type} [DecidableEq K] :
    ∀ {l : List (K × V)} {k : K} {v : V}, assocFind l k = some v → (k, v) ∈ l := by
  intro l
  induction l with
  | nil => intro k v h; exact absurd h (by simp [assocFind])
  | cons kv rest ih =>
    intro k v h
    unfold assocFind at h
    split at h
    · rename_i he
      cases h
      have : (k, kv.2) = kv := by rw [← he]
      exact this ▸ List.mem_cons_self kv rest
    · exact List.mem_cons_of_mem kv (ih h)

theorem mem_removeKey {K V : Type} [DecidableEq K] :
    ∀ {l : List (K × V)} {k : K} {e : K × V}, e ∈ removeKey l k → e ∈ l := by
  intro l
  induction l with
  | nil => intro k e h; exact absurd h (by simp [removeKey])
  | cons kv rest ih =>
    intro k e h
    unfold removeKey at h
    split at h
    · exact List.mem_cons_of_mem kv (ih h)
    · rcases List.mem_cons.mp h with he | he
      · exact he ▸ List.mem_cons_self kv rest
      · exact List.mem_cons_of_mem kv (ih he)

theorem TTInv_get (E : Eng Pos Move) (tt : LRU Nat (TTEntry Move)) (k : Nat)
    (h : TTInv E tt) : TTInv E (tt.get k).2 := by
  unfold LRU.get
  split
  · rename_i v hfind
    intro ke hke m hm
    rcases List.mem_append.mp hke with hmem | hmem
    · exact h ke (mem_removeKey hmem) m hm
    · have : ke = (k, v) := by simpa using hmem
      subst this
      exact h (k, v) (mem_of_assocFind_eq_some hfind) m hm
  · exact h

theorem TTInv_put (E : Eng Pos Move) (tt : LRU Nat (TTEntry Move)) (k : Nat)
    (v : TTEntry Move) (h : TTInv E tt)
    (hv : ∀ m, v.move = some m → LegalFor E k m) : TTInv E (tt.put k v) := by
  unfold LRU.put
  split
  · intro ke hke m hm
    rcases List.mem_append.mp hke with hmem | hmem
    · exact h ke (mem_removeKey hmem) m hm
    · have : ke = (k, v) := by simpa using hmem
      subst this
      exact hv m hm
  · intro ke hke m hm
    rcases List.mem_append.mp hke with hmem | hmem
    · have hsub : ke ∈ tt.data := by
        revert hmem
        split
        · exact fun hmem => List.mem_of_mem_tail hmem
        · exact fun hmem => hmem
      exact h ke hsub m hm
    · have : ke = (k, v) := by simpa using hmem
      subst this
      exact hv m hm

theorem TTInv_ttStore (E : Eng Pos Move) (st : SState Pos Move) (zkey : Nat)
    (score : Int) (flag depth : Nat) (mv : Option Move)
    (h : TTInv E st.tt) (hv : ∀ m, mv = some m → LegalFor E zkey m) :
    TTInv E (ttStore st zkey score flag depth mv).tt :=
  TTInv_put E st.tt zkey ⟨score, flag, depth, mv⟩ h hv

theorem ttProbe_inl_move {depth : Nat} {alpha beta : Int}
    {entry : Option (TTEntry Move)} {r : Int × Option Move}
    (h : ttProbe depth alpha beta entry = .inl r) :
    ∃ e, entry = some e ∧ r.2 = e.move := by
  simp only [ttProbe] at h
  split at h
  · exact absurd h (by simp)
  · rename_i e
    refine ⟨e, rfl, ?_⟩
    split at h
    · split at h
      · injection h with h1
        subst h1
        rfl
      · generalize (if e.flag = FLAG_LOWER then max alpha e.score else alpha) = a2 at h
        generalize (if e.flag = FLAG_UPPER then min beta e.score else beta) = b2 at h
        split at h
        · injection h with h1
          subst h1
          rfl
        · exact absurd h (by simp)
    · exact absurd h (by simp)

theorem insertDesc_mem {M : Type} {x y : Int × M} :
    ∀ {l : List (Int × M)}, x ∈ insertDesc y l → x = y ∨ x ∈ l := by
  intro l
  induction l with
  | nil => intro h; simpa [insertDesc] using h
  | cons z rest ih =>
    intro h
    unfold insertDesc at h
    split at h
    · rcases List.mem_cons.mp h with he | he
      · exact Or.inl he
      · exact Or.inr he
    · rcases List.mem_cons.mp h with he | he
      · exact Or.inr (he ▸ List.mem_cons_self z rest)
      · rcases ih he with h1 | h1
        · exact Or.inl h1
        · exact Or.inr (List.mem_cons_of_mem z h1)

theorem sortDesc_mem {M : Type} {x : Int × M} :
    ∀ {l : List (Int × M)}, x ∈ sortDesc l → x ∈ l := by
  intro l
  induction l with
  | nil => intro h; simpa [sortDesc] using h
  | cons y rest ih =>
    intro h
    unfold sortDesc at h
    rcases insertDesc_mem h with he | he
    · exact he ▸ List.mem_cons_self y rest
    · exact List.mem_cons_of_mem y (ih he)

theorem orderMoves_mem (E : Eng Pos Move)
    (killers : List (Option Move × Option Move))
    (history : List ((Nat × Nat) × Nat)) (p : Pos) (depth : Nat)
    {moves : List Move} {m : Move}
    (h : m ∈ orderMoves E killers history p depth moves) : m ∈ moves := by
  unfold orderMoves at h
  obtain ⟨pr, hpr, hm⟩ := List.mem_map.mp h
  obtain ⟨a, ha, hfa⟩ := List.mem_map.mp (sortDesc_mem hpr)
  have : a = m := by rw [← hfa] at hm; exact hm
  exact this ▸ ha

theorem childMaxRe_inv (E : Eng Pos Move)
    (rec : Nat → Int → Int → Bool → SState Pos Move → MMRes Move × SState Pos Move)
    (hrecT : ∀ d a b mx st, TTInv E st.tt → TTInv E (rec d a b mx st).2.tt)
    (depth : Nat) (alpha beta : Int) (r1 : MMRes Move × SState Pos Move)
    (htt : TTInv E r1.2.tt) :
    TTInv E (childMaxRe rec depth alpha beta r1).2.tt := by
  unfold childMaxRe
  split
  · split
    · exact hrecT _ _ _ _ _ htt
    · exact htt
  · exact htt

theorem childMinRe_inv (E : Eng Pos Move)
    (rec : Nat → Int → Int → Bool → SState Pos Move → MMRes Move × SState Pos Move)
    (hrecT : ∀ d a b mx st, TTInv E st.tt → TTInv E (rec d a b mx st).2.tt)
    (depth : Nat) (alpha beta : Int) (r1 : MMRes Move × SState Pos Move)
    (htt : TTInv E r1.2.tt) :
    TTInv E (childMinRe rec depth alpha beta r1).2.tt := by
  unfold childMinRe
  split
  · split
    · exact hrecT _ _ _ _ _ htt
    · exact htt
  · exact htt

theorem childMax_inv (E : Eng Pos Move)
    (rec : Nat → Int → Int → Bool → SState Pos Move → MMRes Move × SState Pos Move)
    (hrecT : ∀ d a b mx st, TTInv E st.tt → TTInv E (rec d a b mx st).2.tt)
    (depth : Nat) (alpha beta : Int) (i : Nat) (m : Move) (st : SState Pos Move)
    (htt : TTInv E st.tt) :
    TTInv E (childMax E rec depth alpha beta i m st).2.tt := by
  unfold childMax
  split
  · exact childMaxRe_inv E rec hrecT depth alpha beta _ (hrecT _ _ _ _ _ htt)
  · exact hrecT _ _ _ _ _ htt

theorem childMin_inv (E : Eng Pos Move)
    (rec : Nat → Int → Int → Bool → SState Pos Move → MMRes Move × SState Pos Move)
    (hrecT : ∀ d a b mx st, TTInv E st.tt → TTInv E (rec d a b mx st).2.tt)
    (depth : Nat) (alpha beta : Int) (i : Nat) (m : Move) (st : SState Pos Move)
    (htt : TTInv E st.tt) :
    TTInv E (childMin E rec depth alpha beta i m st).2.tt := by
  unfold childMin
  split
  · exact childMinRe_inv E rec hrecT depth alpha beta _ (hrecT _ _ _ _ _ htt)
  · exact hrecT _ _ _ _ _ htt

theorem searchMax_inv (E : Eng Pos Move)
    (rec : Nat → Int → Int → Bool → SState Pos Move → MMRes Move × SState Pos Move)
    (hrecT : ∀ d a b mx st, TTInv E st.tt → TTInv E (rec d a b mx st).2.tt)
    (b : Pos) (depth zkey : Nat) (origAlpha beta : Int)
    (hzk : ∀ m, m ∈ E.legalMoves b → LegalFor E zkey m) :
    ∀ (moves : List Move) (i : Nat) (bs : Int) (bm : Option Move) (alpha : Int)
      (st : SState Pos Move),
      (∀ m ∈ moves, m ∈ E.legalMoves b) →
      (∀ m, bm = some m → m ∈ E.legalMoves b) →
      TTInv E st.tt →
      TTInv E (searchMax E rec depth zkey origAlpha beta moves i bs bm alpha st).2.tt ∧
      (∀ m, (searchMax E rec depth zkey origAlpha beta moves i bs bm alpha st).1.2 = some m →
        m ∈ E.legalMoves b) := by
  intro moves
  induction moves with
  | nil =>
    intro i bs bm alpha st hmoves hbm htt
    simp only [searchMax]
    exact ⟨TTInv_ttStore E st zkey bs _ depth bm htt
        (fun m hm => hzk m (hbm m hm)),
      fun m hm => hbm m hm⟩
  | cons m rest ih =>
    intro i bs bm alpha st hmoves hbm htt
    simp only [searchMax]
    have htt1 : TTInv E (bPop (childMax E rec depth alpha beta i m (bPush E st m)).2).tt :=
      childMax_inv E rec hrecT depth alpha beta i m (bPush E st m) htt
    split
    · exact ⟨htt1, fun m' hm' => Option.noConfusion hm'⟩
    · rename_i score heq
      have hm' : ∀ m', (if score > bs then some m else bm) = some m' →
          m' ∈ E.legalMoves b := by
        intro m' h
        split at h
        · cases h
          exact hmoves m (List.mem_cons_self m rest)
        · exact hbm m' h
      generalize (if score > bs then score else bs) = bs'
      revert hm'
      generalize (if score > bs then some m else bm) = bm'
      intro hm'
      split
      · refine ⟨?_, fun m' hm'' => hm' m' hm''⟩
        apply TTInv_ttStore
        · split <;> exact htt1
        · exact fun m' hm'' => hzk m' (hm' m' hm'')
      · exact ih (i + 1) bs' bm' (max alpha bs')
          (bPop (childMax E rec depth alpha beta i m (bPush E st m)).2)
          (fun m' hm'' => hmoves m' (List.mem_cons_of_mem m hm'')) hm' htt1

theorem searchMin_inv (E : Eng Pos Move)
    (rec : Nat → Int → Int → Bool → SState Pos Move → MMRes Move × SState Pos Move)
    (hrecT : ∀ d a b mx st, TTInv E st.tt → TTInv E (rec d a b mx st).2.tt)
    (b : Pos) (depth zkey : Nat) (origAlpha alpha : Int)
    (hzk : ∀ m, m ∈ E.legalMoves b → LegalFor E zkey m) :
    ∀ (moves : List Move) (i : Nat) (bs : Int) (bm : Option Move) (beta : Int)
      (st : SState Pos Move),
      (∀ m ∈ moves, m ∈ E.legalMoves b) →
      (∀ m, bm = some m → m ∈ E.legalMoves b) →
      TTInv E st.tt →
      TTInv E (searchMin E rec depth zkey origAlpha alpha moves i bs bm beta st).2.tt ∧
      (∀ m, (searchMin E rec depth zkey origAlpha alpha moves i bs bm beta st).1.2 = some m →
        m ∈ E.legalMoves b) := by
  intro moves
  induction moves with
  | nil =>
    intro i bs bm beta st hmoves hbm htt
    simp only [searchMin]
    exact ⟨TTInv_ttStore E st zkey bs _ depth bm htt
        (fun m hm => hzk m (hbm m hm)),
      fun m hm => hbm m hm⟩
  | cons m rest ih =>
    intro i bs bm beta st hmoves hbm htt
    simp only [searchMin]
    have htt1 : TTInv E (bPop (childMin E rec depth alpha beta i m (bPush E st m)).2).tt :=
      childMin_inv E rec hrecT depth alpha beta i m (bPush E st m) htt
    split
    · exact ⟨htt1, fun m' hm' => Option.noConfusion hm'⟩
    · rename_i score heq
      have hm' : ∀ m', (if score < bs then some m else bm) = some m' →
          m' ∈ E.legalMoves b := by
        intro m' h
        split at h
        · cases h
          exact hmoves m (List.mem_cons_self m rest)
        · exact hbm m' h
      generalize (if score < bs then score else bs) = bs'
      revert hm'
      generalize (if score < bs then some m else bm) = bm'
      intro hm'
      split
      · refine ⟨?_, fun m' hm'' => hm' m' hm''⟩
        apply TTInv_ttStore
        · split <;> exact htt1
        · exact fun m' hm'' => hzk m' (hm' m' hm'')
      · exact ih (i + 1) bs' bm' (min beta bs')
          (bPop (childMin E rec depth alpha beta i m (bPush E st m)).2)
          (fun m' hm'' => hmoves m' (List.mem_cons_of_mem m hm'')) hm' htt1

theorem mmMoves_inv (E : Eng Pos Move)
    (rec : Nat → Int → Int → Bool → SState Pos Move → MMRes Move × SState Pos Move)
    (hrecT : ∀ d a b mx st, TTInv E st.tt → TTInv E (rec d a b mx st).2.tt)
    (depth : Nat) (alpha beta : Int) (maximizing : Bool) (zkey : Nat)
    (ttMove : Option Move) (st : SState Pos Move) (b : Pos)
    (hb : st.board.cur = b)
    (hzk : ∀ m, m ∈ E.legalMoves b → LegalFor E zkey m)
    (htt : TTInv E st.tt) :
    TTInv E (mmMoves E rec depth alpha beta maximizing zkey ttMove st).2.tt ∧
    (∀ m, (mmMoves E rec depth alpha beta maximizing zkey ttMove st).1.2 = some m →
      m ∈ E.legalMoves b) := by
  subst hb
  simp only [mmMoves]
  split
  · exact ⟨htt, fun m hm => Option.noConfusion hm⟩
  · have hsub : ∀ m, m ∈ (match ttMove with
        | some tm => if tm ∈ E.legalMoves st.board.cur
            then tm :: (E.legalMoves st.board.cur).erase tm
            else E.legalMoves st.board.cur
        | none => E.legalMoves st.board.cur) → m ∈ E.legalMoves st.board.cur := by
      intro m hm
      cases ttMove with
      | none => exact hm
      | some tm =>
        have hm2 : m ∈ (if tm ∈ E.legalMoves st.board.cur
            then tm :: (E.legalMoves st.board.cur).erase tm
            else E.legalMoves st.board.cur) := hm
        by_cases hmem : tm ∈ E.legalMoves st.board.cur
        · rw [if_pos hmem] at hm2
          rcases List.mem_cons.mp hm2 with he | he
          · exact he ▸ hmem
          · exact List.mem_of_mem_erase he
        · rw [if_neg hmem] at hm2
          exact hm2
    split
    · exact searchMax_inv E rec hrecT st.board.cur depth zkey alpha beta hzk _ 0 _ none
        alpha st (fun m hm => hsub m (orderMoves_mem E _ _ _ _ hm))
        (fun m hm => Option.noConfusion hm) htt
    · exact searchMin_inv E rec hrecT st.board.cur depth zkey alpha alpha hzk _ 0 _ none
        beta st (fun m hm => hsub m (orderMoves_mem E _ _ _ _ hm))
        (fun m hm => Option.noConfusion hm) htt

theorem mmNullAfter_inv (E : Eng Pos Move)
    (rec : Nat → Int → Int → Bool → SState Pos Move → MMRes Move × SState Pos Move)
    (hrecT : ∀ d a b mx st, TTInv E st.tt → TTInv E (rec d a b mx st).2.tt)
    (depth : Nat) (alpha beta : Int) (maximizing : Bool) (zkey : Nat)
    (ttMove : Option Move) (rn : MMRes Move × SState Pos Move) (b : Pos)
    (hb : (bPop rn.2).board.cur = b)
    (htt : TTInv E rn.2.tt)
    (hzk : ∀ m, m ∈ E.legalMoves b → LegalFor E zkey m) :
    TTInv E (mmNullAfter E rec depth alpha beta maximizing zkey ttMove rn).2.tt ∧
    (∀ m, (mmNullAfter E rec depth alpha beta maximizing zkey ttMove rn).1.2 = some m →
      m ∈ E.legalMoves b) := by
  unfold mmNullAfter
  split
  · split
    · exact ⟨htt, fun m hm => Option.noConfusion hm⟩
    · exact mmMoves_inv E rec hrecT depth alpha beta maximizing zkey ttMove
        (bPop rn.2) b hb hzk htt
  · exact mmMoves_inv E rec hrecT depth alpha beta maximizing zkey ttMove
      (bPop rn.2) b hb hzk htt

theorem mmMain_inv (E : Eng Pos Move)
    (rec : Nat → Int → Int → Bool → SState Pos Move → MMRes Move × SState Pos Move)
    (hrecB : ∀ d a b mx st, (rec d a b mx st).2.board = st.board)
    (hrecT : ∀ d a b mx st, TTInv E st.tt → TTInv E (rec d a b mx st).2.tt)
    (depth : Nat) (alpha beta : Int) (maximizing : Bool) (zkey : Nat)
    (ttMove : Option Move) (st : SState Pos Move) (b : Pos)
    (hb : st.board.cur = b)
    (htt : TTInv E st.tt)
    (hzk : ∀ m, m ∈ E.legalMoves b → LegalFor E zkey m) :
    TTInv E (mmMain E rec depth alpha beta maximizing zkey ttMove st).2.tt ∧
    (∀ m, (mmMain E rec depth alpha beta maximizing zkey ttMove st).1.2 = some m →
      m ∈ E.legalMoves b) := by
  subst hb
  unfold mmMain
  split
  · have hbb : (bPop (rec (depth - 3) (-beta) (-beta + 1) (!maximizing)
        (bPushNull E st)).2).board = st.board := by
      apply bPop_board_eq
      rw [hrecB]
      rfl
    exact mmNullAfter_inv E rec hrecT depth alpha beta maximizing zkey ttMove
      _ st.board.cur (by rw [hbb]) (hrecT _ _ _ _ _ htt) hzk
  · exact mmMoves_inv E rec hrecT depth alpha beta maximizing zkey ttMove st
      st.board.cur rfl hzk htt

theorem mmAfterProbe_inv (E : Eng Pos Move)
    (rec : Nat → Int → Int → Bool → SState Pos Move → MMRes Move × SState Pos Move)
    (hrecB : ∀ d a b mx st, (rec d a b mx st).2.board = st.board)
    (hrecT : ∀ d a b mx st, TTInv E st.tt → TTInv E (rec d a b mx st).2.tt)
    (depth : Nat) (maximizing : Bool) (zkey : Nat)
    (pr : Sum (Int × Option Move) (Int × Int × Option Move)) (st : SState Pos Move)
    (b : Pos) (hb : st.board.cur = b)
    (htt : TTInv E st.tt)
    (hzk : ∀ m, m ∈ E.legalMoves b → LegalFor E zkey m)
    (hinl : ∀ r, pr = .inl r → ∀ m, r.2 = some m → m ∈ E.legalMoves b) :
    TTInv E (mmAfterProbe E rec depth maximizing zkey pr st).2.tt ∧
    (∀ m, (mmAfterProbe E rec depth maximizing zkey pr st).1.2 = some m →
      m ∈ E.legalMoves b) := by
  subst hb
  unfold mmAfterProbe
  split
  · rename_i r
    exact ⟨htt, fun m hm => hinl r rfl m hm⟩
  · rename_i c
    split
    · refine ⟨?_, fun m hm => Option.noConfusion hm⟩
      rw [(quiescence_ok E E.qfuel _ _ _ _).2.1]
      exact htt
    · exact mmMain_inv E rec hrecB hrecT depth c.1 c.2.1 maximizing zkey c.2.2 st
        st.board.cur rfl htt hzk

theorem mmBody_inv (E : Eng Pos Move)
    (rec : Nat → Int → Int → Bool → SState Pos Move → MMRes Move × SState Pos Move)
    (hrecB : ∀ d a b mx st, (rec d a b mx st).2.board = st.board)
    (hrecT : ∀ d a b mx st, TTInv E st.tt → TTInv E (rec d a b mx st).2.tt)
    (hhash : ∀ p q : Pos, E.zobrist p = E.zobrist q → E.legalMoves p = E.legalMoves q)
    (depth : Nat) (alpha beta : Int) (maximizing : Bool) (st : SState Pos Move)
    (htt : TTInv E st.tt) :
    TTInv E (mmBody E rec depth alpha beta maximizing st).2.tt ∧
    (∀ m, (mmBody E rec depth alpha beta maximizing st).1.2 = some m →
      m ∈ E.legalMoves st.board.cur) := by
  unfold mmBody
  split
  · exact ⟨htt, fun m hm => Option.noConfusion hm⟩
  · split
    · split
      · exact ⟨htt, fun m hm => Option.noConfusion hm⟩
      · exact ⟨htt, fun m hm => Option.noConfusion hm⟩
    · refine mmAfterProbe_inv E rec hrecB hrecT depth maximizing _ _ _
        st.board.cur rfl (TTInv_get E st.tt _ htt) ?_ ?_
      · intro m hm p hp
        rw [hhash p st.board.cur hp]
        exact hm
      · intro r hr m hm
        obtain ⟨e, he, hmv⟩ := ttProbe_inl_move hr
        rw [LRU.get_fst] at he
        have hmem := mem_of_assocFind_eq_some he
        have hlf := htt (E.zobrist st.board.cur, e) hmem m (by rw [← hmv]; exact hm)
        exact hlf st.board.cur rfl

theorem minimax_inv (E : Eng Pos Move)
    (hhash : ∀ p q : Pos, E.zobrist p = E.zobrist q → E.legalMoves p = E.legalMoves q) :
    ∀ (fuel depth : Nat) (alpha beta : Int) (maximizing : Bool) (st : SState Pos Move),
      TTInv E st.tt →
      TTInv E (minimax E fuel depth alpha beta maximizing st).2.tt ∧
      (∀ m, (minimax E fuel depth alpha beta maximizing st).1.2 = some m →
        m ∈ E.legalMoves st.board.cur) := by
  intro fuel
  induction fuel with
  | zero =>
    intro depth alpha beta maximizing st htt
    exact ⟨htt, fun m hm => Option.noConfusion hm⟩
  | succ fuel ih =>
    intro depth alpha beta maximizing st htt
    exact mmBody_inv E (minimax E fuel)
      (fun d a b mx s => (minimax_ok E fuel d a b mx s).1)
      (fun d a b mx s ht => (ih d a b mx s ht).1)
      hhash depth alpha beta maximizing st htt

theorem idFallback_mem (E : Eng Pos Move) (root : Pos) (m0 : Move) (rest : List Move)
    (h : E.legalMoves root = m0 :: rest) :
    idFallback E root m0 ∈ E.legalMoves root := by
  unfold idFallback
  split
  · rename_i n0 ns hf
    refine List.mem_of_mem_filter (p := fun m => !isRepetitionMove E root m) ?_
    rw [hf]
    exact List.mem_cons_self n0 ns
  · rw [h]
    exact List.mem_cons_self m0 rest

theorem idFallback_nonrep (E : Eng Pos Move) (root : Pos) (m0 : Move)
    {n0 : Move} {ns : List Move}
    (hf : (E.legalMoves root).filter (fun m => !isRepetitionMove E root m) = n0 :: ns) :
    isRepetitionMove E root (idFallback E root m0) = false := by
  unfold idFallback
  rw [hf]
  have hmem : n0 ∈ (E.legalMoves root).filter (fun m => !isRepetitionMove E root m) := by
    rw [hf]
    exact List.mem_cons_self n0 ns
  have h2 := (List.mem_filter.mp hmem).2
  show isRepetitionMove E root n0 = false
  simpa using h2

theorem idLoop_board (E : Eng Pos Move) :
    ∀ (iters curDepth : Nat) (best : Move) (maxi : Bool) (st : SState Pos Move),
      (idLoop E iters curDepth best maxi st).2.board = st.board := by
  intro iters
  induction iters with
  | zero => intro curDepth best maxi st; rfl
  | succ iters ih =>
    intro curDepth best maxi st
    simp only [idLoop]
    split
    · split
      · exact (minimax_ok E (curDepth + 1) curDepth _ _ maxi st).1
      · rw [ih]
        exact (minimax_ok E (curDepth + 1) curDepth _ _ maxi st).1
    · exact (minimax_ok E (curDepth + 1) curDepth _ _ maxi st).1

theorem idLoop_inv (E : Eng Pos Move)
    (hhash : ∀ p q : Pos, E.zobrist p = E.zobrist q → E.legalMoves p = E.legalMoves q) :
    ∀ (iters curDepth : Nat) (best : Move) (maxi : Bool) (st : SState Pos Move),
      TTInv E st.tt → best ∈ E.legalMoves st.board.cur →
      (idLoop E iters curDepth best maxi st).1 ∈ E.legalMoves st.board.cur := by
  intro iters
  induction iters with
  | zero => intro curDepth best maxi st htt hbest; exact hbest
  | succ iters ih =>
    intro curDepth best maxi st htt hbest
    simp only [idLoop]
    split
    · rename_i s mv heq
      have hmv : mv ∈ E.legalMoves st.board.cur := by
        refine (minimax_inv E hhash (curDepth + 1) curDepth (-(10 ^ 9 : Int))
          ((10 ^ 9 : Int)) maxi st htt).2 mv ?_
        rw [heq]
      split
      · exact hmv
      · have hb := (minimax_ok E (curDepth + 1) curDepth (-(10 ^ 9 : Int))
          ((10 ^ 9 : Int)) maxi st).1
        have hrec := ih (curDepth + 1) mv maxi
          (minimax E (curDepth + 1) curDepth (-(10 ^ 9 : Int)) ((10 ^ 9 : Int)) maxi st).2
          (minimax_inv E hhash (curDepth + 1) curDepth _ _ maxi st htt).1
          (by rw [hb]; exact hmv)
        rw [hb] at hrec
        exact hrec
    · exact hbest

theorem idLoop_scoreNone (E : Eng Pos Move)
    (iters curDepth : Nat) (best : Move) (maxi : Bool) (st : SState Pos Move)
    (s : Int) (st2 : SState Pos Move)
    (h : minimax E (curDepth + 1) curDepth (-(10 ^ 9 : Int)) ((10 ^ 9 : Int)) maxi st
      = ((some s, none), st2)) :
    idLoop E (iters + 1) curDepth best maxi st = (best, st2) := by
  simp only [idLoop]
  rw [h]

theorem mmBody_rep (E : Eng Pos Move)
    (rec : Nat → Int → Int → Bool → SState Pos Move → MMRes Move × SState Pos Move)
    (depth : Nat) (alpha beta : Int) (maximizing : Bool) (st : SState Pos Move)
    (hn : (st.nodes + 1) % 2048 ≠ 0)
    (hrep : E.isRepetition2 st.board.cur = true) :
    ∃ s : Int, mmBody E rec depth alpha beta maximizing st
      = ((some s, none), { st with nodes := st.nodes + 1 }) := by
  unfold mmBody
  rw [if_neg (fun hc => hn hc.1), if_pos hrep]
  split
  · exact ⟨-200, rfl⟩
  · exact ⟨0, rfl⟩

theorem iterativeDeepening_nil (E : Eng Pos Move) (st : SState Pos Move)
    (h : E.legalMoves st.board.cur = []) :
    iterativeDeepening E st = (.error .noLegalMove, { st with nodes := 0 }) := by
  have h2 : E.legalMoves ({ st with nodes := 0 } : SState Pos Move).board.cur = [] := h
  simp only [iterativeDeepening]
  rw [h2]

theorem iterativeDeepening_cons (E : Eng Pos Move) (st : SState Pos Move)
    (m0 : Move) (rest : List Move) (h : E.legalMoves st.board.cur = m0 :: rest) :
    iterativeDeepening E st
      = (.ok (idLoop E MAX_DEPTH 1 (idFallback E st.board.cur m0)
            (E.turnWhite st.board.cur) { st with nodes := 0 }).1,
        (idLoop E MAX_DEPTH 1 (idFallback E st.board.cur m0)
            (E.turnWhite st.board.cur) { st with nodes := 0 }).2) := by
  have h2 : E.legalMoves ({ st with nodes := 0 } : SState Pos Move).board.cur
      = m0 :: rest := h
  simp only [iterativeDeepening]
  rw [h2]

theorem coupSearch_spec (E : Eng Pos Move)
    (hhash : ∀ p q : Pos, E.zobrist p = E.zobrist q → E.legalMoves p = E.legalMoves q)
    (ia : IAState Pos Move) (htt : TTInv E ia.search.tt) :
    (E.legalMoves ia.search.board.cur = [] →
      (coupSearch E ia).1 = .error .noLegalMove)
    ∧ (∀ s, (coupSearch E ia).1 = .ok s →
        ∃ mv ∈ E.legalMoves ia.search.board.cur, s = E.san ia.search.board.cur mv) := by
  constructor
  · intro hleg
    simp only [coupSearch]
    rw [iterativeDeepening_nil E ia.search hleg]
  · intro s hs
    rcases hleg : E.legalMoves ia.search.board.cur with _ | ⟨m0, rest⟩
    · simp only [coupSearch] at hs
      rw [iterativeDeepening_nil E ia.search hleg] at hs
      exact absurd hs (by simp)
    · have hcons := iterativeDeepening_cons E ia.search m0 rest hleg
      have hcs : (coupSearch E ia).1
          = .ok (E.san ((idLoop E MAX_DEPTH 1 (idFallback E ia.search.board.cur m0)
                (E.turnWhite ia.search.board.cur) { ia.search with nodes := 0 }).2.board.cur)
              ((idLoop E MAX_DEPTH 1 (idFallback E ia.search.board.cur m0)
                (E.turnWhite ia.search.board.cur) { ia.search with nodes := 0 }).1)) := by
        simp only [coupSearch]
        rw [hcons]
      have hbl := idLoop_board E MAX_DEPTH 1 (idFallback E ia.search.board.cur m0)
        (E.turnWhite ia.search.board.cur) { ia.search with nodes := 0 }
      have hmem : (idLoop E MAX_DEPTH 1 (idFallback E ia.search.board.cur m0)
          (E.turnWhite ia.search.board.cur) { ia.search with nodes := 0 }).1
            ∈ E.legalMoves ia.search.board.cur := by
        have := idLoop_inv E hhash MAX_DEPTH 1 (idFallback E ia.search.board.cur m0)
          (E.turnWhite ia.search.board.cur) { ia.search with nodes := 0 } htt
          (idFallback_mem E ia.search.board.cur m0 rest hleg)
        exact this
      rw [hleg] at hmem
      rw [hcs] at hs
      injection hs with hs1
      refine ⟨_, hmem, ?_⟩
      rw [← hs1, hbl]

/-- C1: with a collision-free hash (positions with equal Zobrist keys have
equal legal-move lists) and a transposition table whose stored moves are
legal for their keys, iterative_deepening raises exactly NoLegalMove on a
position with no legal move, returns a legal move of the root position
otherwise, uses as its fallback the first non-repeating legal move (the
first legal move when all repeat, returned directly when the root is
itself a twice-seen repetition), and coup's search path propagates the
same contract, answering with the SAN of a legal move. -/
theorem claim_C1 {Pos Move : Type} [DecidableEq Move] (E : Eng Pos Move)
    (st : SState Pos Move)
    (hhash : ∀ p q : Pos, E.zobrist p = E.zobrist q → E.legalMoves p = E.legalMoves q)
    (htt : TTInv E st.tt) :
    (E.legalMoves st.board.cur = [] →
      iterativeDeepening E st = (.error .noLegalMove, { st with nodes := 0 }))
    ∧ (∀ e, (iterativeDeepening E st).1 = .error e →
        e = .noLegalMove ∧ E.legalMoves st.board.cur = [])
    ∧ (∀ mv, (iterativeDeepening E st).1 = .ok mv → mv ∈ E.legalMoves st.board.cur)
    ∧ (∀ m0 rest, E.legalMoves st.board.cur = m0 :: rest →
        idFallback E st.board.cur m0 ∈ E.legalMoves st.board.cur
        ∧ (∀ n0 ns, (E.legalMoves st.board.cur).filter
              (fun m => !isRepetitionMove E st.board.cur m) = n0 :: ns →
            isRepetitionMove E st.board.cur (idFallback E st.board.cur m0) = false)
        ∧ (E.isRepetition2 st.board.cur = true →
            (iterativeDeepening E st).1 = .ok (idFallback E st.board.cur m0)))
    ∧ (∀ (p : Pos) (ia : IAState Pos Move), 12 ≤ ia.openingMovesPlayed →
        ia.learning = none → TTInv E ia.search.tt →
        (E.legalMoves p = [] → (coup E p ia).1 = .error .noLegalMove)
        ∧ (∀ s, (coup E p ia).1 = .ok s → ∃ mv ∈ E.legalMoves p, s = E.san p mv)) := by
  refine ⟨iterativeDeepening_nil E st, ?_, ?_, ?_, ?_⟩
  · intro e he
    cases e
    refine ⟨rfl, ?_⟩
    rcases hleg : E.legalMoves st.board.cur with _ | ⟨m0, rest⟩
    · rfl
    · rw [iterativeDeepening_cons E st m0 rest hleg] at he
      exact absurd he (by simp)
  · intro mv hmv
    rcases hleg : E.legalMoves st.board.cur with _ | ⟨m0, rest⟩
    · rw [iterativeDeepening_nil E st hleg] at hmv
      exact absurd hmv (by simp)
    · rw [iterativeDeepening_cons E st m0 rest hleg] at hmv
      injection hmv with h1
      have hin : (idLoop E MAX_DEPTH 1 (idFallback E st.board.cur m0)
          (E.turnWhite st.board.cur) { st with nodes := 0 }).1
            ∈ E.legalMoves st.board.cur :=
        idLoop_inv E hhash MAX_DEPTH 1 (idFallback E st.board.cur m0)
          (E.turnWhite st.board.cur) { st with nodes := 0 } htt
          (idFallback_mem E st.board.cur m0 rest hleg)
      rw [hleg] at hin
      exact h1 ▸ hin
  · intro m0 rest hleg
    refine ⟨idFallback_mem E st.board.cur m0 rest hleg,
      fun n0 ns hf => idFallback_nonrep E st.board.cur m0 hf, ?_⟩
    intro hrep
    obtain ⟨s, hs⟩ := mmBody_rep E (minimax E 1) 1 (-(10 ^ 9 : Int)) ((10 ^ 9 : Int))
      (E.turnWhite st.board.cur) { st with nodes := 0 } (by simp) hrep
    have hid := idLoop_scoreNone E 9 1 (idFallback E st.board.cur m0)
      (E.turnWhite st.board.cur) { st with nodes := 0 } s _ hs
    rw [iterativeDeepening_cons E st m0 rest hleg,
      show (MAX_DEPTH : Nat) = 9 + 1 from rfl, hid]
  · intro p ia h12 hlearn htt2
    have hcoup : coup E p ia = coupSearch E
        { ia with search := { ia.search with board := ⟨p, []⟩, killers := freshKillers } } := by
      simp only [coup]
      rw [if_neg (by omega)]
      show coupAfterBook E p _ = _
      simp only [coupAfterBook]
      rw [hlearn]
    have hspec := coupSearch_spec E hhash
      { ia with search := { ia.search with board := ⟨p, []⟩, killers := freshKillers } }
      htt2
    constructor
    · intro hleg
      rw [hcoup]
      exact hspec.1 hleg
    · intro s hs
      rw [hcoup] at hs
      exact hspec.2 s hs

/-- Witness for C1: on the one-move toy game with a constant hash and an
empty transposition table, the move returned by iterative_deepening is
legal at the root. -/
theorem claim_C1_witness :
    (0 : Nat) ∈ toyBase.legalMoves st0.board.cur :=
  (claim_C1 toyBase st0 (fun _ _ _ => rfl)
    (fun ke hke => absurd hke (List.not_mem_nil ke))).2.2.1 0 (by rfl)
